import Mathlib

/-!
Verification of the caching layer of the `analytic-sample` repository.

The development shallowly embeds the cache subsystem:

* `cache_key` and the `cached` decorator from `shared/utils/cache.py`;
* `CacheManager` (`get` / `set` / `delete` / `delete_pattern`) from the same file;
* the invalidation strategies of `shared/utils/cache_invalidation.py`
  (`EventBasedInvalidation`, `ManualInvalidation`);
* the TTL tables (`shared/config/__init__.py` and the warmer's private
  `CACHE_TTLS`) and the warming writes of `shared/cache_warmer.py`.

External collaborators are modelled at the level of their contracts:

* the Redis backend is a finite key/value store with a cursor-based `SCAN`;
  entries are kept in a positionally stable list (deleted entries become
  tombstones), so that an in-progress scan is not disturbed by deletions,
  matching the SCAN guarantee that keys present for the whole iteration are
  visited.  Backend outages are modelled by a countdown `failAfter`: after
  that many successful commands every further command raises.
* `json.dumps` / `json.loads` are modelled by an executable serializer and a
  fueled recursive-descent reader for a JSON value type (`Json`), together
  with a proved round-trip theorem.
* Redis `MATCH` glob patterns are modelled for the pattern language the
  repository actually emits: literal characters plus `*` and `?` (no
  character classes, no escapes); theorems about symbolic identifiers
  carry hypotheses excluding the unmodelled metacharacters.
-/

/-! ## Python argument values

`cache_key` receives arbitrary positional arguments and stringifies only
`str`, `int`/`bool` and `float` instances, joins `list`/`tuple` instances
with commas, and silently skips everything else (`None`, dicts, objects).
List elements are modelled as strings (the stringified form the code
produces via `str(x)`). -/

inductive Arg where
  | s (v : String)
  | i (v : Int)
  | b (v : Bool)
  | none
  | lst (vs : List String)
  deriving DecidableEq, Repr

/-- Python truthiness of an `Arg` (`bool(arg)`). -/
def pyTruthy : Arg → Bool
  | .s v => v ≠ ""
  | .i v => v ≠ 0
  | .b v => v
  | .none => false
  | .lst vs => vs ≠ []

/-- The per-argument treatment of `cache_key`: `str(arg)` for scalars
(`isinstance(arg, (str, int, float))`, which includes `bool`),
`",".join(str(x) for x in arg)` for lists/tuples, and `none`
(the argument is skipped) otherwise. -/
def argEncode : Arg → Option String
  | .s v => some v
  | .i v => some (toString v)
  | .b v => some (if v then "True" else "False")
  | .lst vs => some (String.intercalate "," vs)
  | .none => Option.none

/-- `cache_key(*args, prefix="", sep=":")` from `shared/utils/cache.py`:
start from `[prefix] if prefix else []`, append the encodable arguments,
and join with the separator. -/
def cache_key (args : List Arg) (pre : String) (sep : String) : String :=
  let keyParts := (if pre ≠ "" then [pre] else []) ++ args.filterMap argEncode
  String.intercalate sep keyParts

example : cache_key [.s "a", .s "b"] "" ":" = "a:b" := by decide
example : cache_key [.s "bitcoin", .i 20] "price" ":" = "price:bitcoin:20" := by
  decide

/-! ## JSON values and `json.dumps`

`Json` models the Python values that round-trip through `json.dumps` /
`json.loads` (the serializer the cache layer uses, with
`serialize_json=True` / `deserialize=True`).  Numbers are integers; the
serialized text follows Python's default output (`", "` / `": "`
separators, `"` and `\` escaped in strings). -/

inductive Json where
  | null
  | bool (b : Bool)
  | num (n : Int)
  | str (s : String)
  | arr (xs : List Json)
  | obj (fs : List (String × Json))

/-- Decimal digits of a natural number, most significant first.  The fuel
argument (any bound above the number itself) makes the recursion structural,
so that concrete values reduce inside the kernel. -/
def natCharsGo : Nat → Nat → List Char
  | 0, _ => []
  | fuel + 1, n =>
    if n < 10 then [Nat.digitChar n]
    else natCharsGo fuel (n / 10) ++ [Nat.digitChar (n % 10)]

/-- Decimal digit string of a natural number (`str(n)` for `n ≥ 0`). -/
def natChars (n : Nat) : List Char := natCharsGo (n + 1) n

/-- `str(n)` for a Python int. -/
def intChars (n : Int) : List Char :=
  if n < 0 then '-' :: natChars n.natAbs else natChars n.toNat

/-- JSON string escaping: `"` and `\` are escaped, everything else is kept. -/
def escapeChars : List Char → List Char
  | [] => []
  | c :: rest =>
    if c = '"' ∨ c = '\\' then '\\' :: c :: escapeChars rest
    else c :: escapeChars rest

def openBrace : Char := Char.ofNat 123
def closeBrace : Char := Char.ofNat 125

/-- Serialized form of a JSON string literal. -/
def dumpsStr (s : String) : List Char := '"' :: escapeChars s.data ++ ['"']

mutual

/-- `json.dumps` on a `Json` value (character list form). -/
def dumpsV : Json → List Char
  | .num n => intChars n
  | .null => ['n', 'u', 'l', 'l']
  | .str s => dumpsStr s
  | .bool true => ['t', 'r', 'u', 'e']
  | .arr xs => '[' :: dumpsArr xs ++ [']']
  | .bool false => ['f', 'a', 'l', 's', 'e']
  | .obj fs => openBrace :: dumpsObj fs ++ [closeBrace]
  termination_by structural v => v

/-- Array elements joined by `", "`. -/
def dumpsArr : List Json → List Char
  | [] => []
  | [x] => dumpsV x
  | x :: y :: r => dumpsV x ++ ',' :: ' ' :: dumpsArr (y :: r)
  termination_by structural xs => xs

/-- Object fields `"key": value` joined by `", "`. -/
def dumpsObj : List (String × Json) → List Char
  | [] => []
  | [(k, v)] => dumpsStr k ++ ':' :: ' ' :: dumpsV v
  | (k, v) :: f :: r => dumpsStr k ++ ':' :: ' ' :: dumpsV v ++ ',' :: ' ' :: dumpsObj (f :: r)
  termination_by structural fs => fs

end

/-- `json.dumps` producing a `String`. -/
def dumps (v : Json) : String := ⟨dumpsV v⟩

example : dumps (.obj [("price", .str "42.5"), ("n", .num 3)])
    = "\x7b\"price\": \"42.5\", \"n\": 3\x7d" := by decide
example : dumps (.arr [.null, .bool true, .num (-12)]) = "[null, true, -12]" := by
  decide

/-! ## `json.loads`

A fueled recursive-descent reader for the output language of `dumpsV`.
`loads` fails (returns `none`) on any input it cannot read back — the
model of `json.loads` raising on corrupt cached bytes. -/

/-- Read a string body up to the closing unescaped quote; the flag records
a pending backslash escape. -/
def readStrGo : Bool → List Char → Option (List Char × List Char)
  | _, [] => Option.none
  | true, c :: rest => (readStrGo false rest).map (fun p => (c :: p.1, p.2))
  | false, c :: rest =>
    if c = '\\' then readStrGo true rest
    else if c = '"' then some ([], rest)
    else (readStrGo false rest).map (fun p => (c :: p.1, p.2))

def readStrBody : List Char → Option (List Char × List Char) := readStrGo false

/-- Literal-keyword readers for `null` / `true` / `false`. -/
def readNull : List Char → Option (Json × List Char)
  | 'u' :: 'l' :: 'l' :: rest => some (.null, rest)
  | _ => Option.none

def readTrue : List Char → Option (Json × List Char)
  | 'r' :: 'u' :: 'e' :: rest => some (.bool true, rest)
  | _ => Option.none

def readFalse : List Char → Option (Json × List Char)
  | 'a' :: 'l' :: 's' :: 'e' :: rest => some (.bool false, rest)
  | _ => Option.none

/-- Greedily read decimal digits, Horner-accumulating their value. -/
def readNatAux : Nat → List Char → Nat × List Char
  | acc, [] => (acc, [])
  | acc, c :: rest =>
    if c.isDigit then readNatAux (10 * acc + (c.toNat - 48)) rest
    else (acc, c :: rest)

mutual

/-- Read one JSON value.  The fuel bounds the nesting of arrays/objects;
dispatch is by the first character. -/
def readV : Nat → List Char → Option (Json × List Char)
  | 0, _ => Option.none
  | _ + 1, [] => Option.none
  | fuel + 1, c :: cs' =>
    if c = 'n' then readNull cs'
    else if c = 't' then readTrue cs'
    else if c = 'f' then readFalse cs'
    else if c = '"' then
      (readStrBody cs').map (fun p => (.str ⟨p.1⟩, p.2))
    else if c = '[' then
      if cs'.head? = some ']' then some (.arr [], cs'.tail)
      else (readElems fuel cs').map (fun p => (.arr p.1, p.2))
    else if c = openBrace then
      if cs'.head? = some closeBrace then some (.obj [], cs'.tail)
      else (readFields fuel cs').map (fun p => (.obj p.1, p.2))
    else if c = '-' then
      if (cs'.head?.map Char.isDigit).getD false then
        let p := readNatAux 0 cs'
        some (.num (-(p.1 : Int)), p.2)
      else Option.none
    else if c.isDigit then
      let p := readNatAux 0 (c :: cs')
      some (.num (p.1 : Int), p.2)
    else Option.none

/-- Read `", "`-separated array elements up to the closing bracket. -/
def readElems : Nat → List Char → Option (List Json × List Char)
  | 0, _ => Option.none
  | fuel + 1, cs =>
    match readV fuel cs with
    | some (v, r) =>
      match r with
      | ']' :: r2 => some ([v], r2)
      | ',' :: ' ' :: r2 => (readElems fuel r2).map (fun p => (v :: p.1, p.2))
      | _ => Option.none
    | Option.none => Option.none

/-- Read `", "`-separated `"key": value` fields up to the closing brace. -/
def readFields : Nat → List Char → Option (List (String × Json) × List Char)
  | 0, _ => Option.none
  | fuel + 1, cs =>
    match cs with
    | '"' :: cs1 =>
      match readStrBody cs1 with
      | some (k, r) =>
        match r with
        | ':' :: ' ' :: r2 =>
          match readV fuel r2 with
          | some (v, r3) =>
            match r3 with
            | ',' :: ' ' :: r4 =>
              (readFields fuel r4).map (fun p => ((⟨k⟩, v) :: p.1, p.2))
            | c :: r4 => if c = closeBrace then some ([(⟨k⟩, v)], r4) else Option.none
            | [] => Option.none
          | Option.none => Option.none
        | _ => Option.none
      | Option.none => Option.none
    | _ => Option.none

end

/-- `json.loads`: read a value consuming the whole input. -/
def loads (s : String) : Option Json :=
  match readV (s.data.length + 1) s.data with
  | some (v, []) => some v
  | _ => Option.none

example : loads "[null, true, -12]" = some (.arr [.null, .bool true, .num (-12)]) := rfl
example : loads (dumps (.obj [("a", .str "x\"y"), ("b", .arr [.num 0])]))
    = some (.obj [("a", .str "x\"y"), ("b", .arr [.num 0])]) := rfl
example : loads "not json" = Option.none := rfl

/-! ## Redis `MATCH` glob patterns

`globGo` models the backend's glob matcher for the pattern language the
repository emits: literal characters, `*` (any substring) and `?` (any
single character).  Character classes and backslash escapes are not
modelled; theorems over symbolic identifiers exclude those metacharacters
by hypothesis.  The fuel (any bound above `|pattern| + |string|`) makes
the recursion structural. -/

def globGo : Nat → List Char → List Char → Bool
  | 0, _, _ => false
  | _ + 1, [], s => s.isEmpty
  | fuel + 1, c :: p', s =>
    if c = '*' then
      globGo fuel p' s ||
        (match s with
         | [] => false
         | _ :: s' => globGo fuel (c :: p') s')
    else
      match s with
      | [] => false
      | d :: s' =>
        if c = '?' then globGo fuel p' s'
        else (c == d) && globGo fuel p' s'

/-- The fuel does not matter once it exceeds `|pattern| + |string|`. -/
theorem globGo_congr :
    ∀ f1 f2 p s, p.length + s.length < f1 → p.length + s.length < f2 →
      globGo f1 p s = globGo f2 p s := by
  intro f1
  induction f1 with
  | zero => intro f2 p s h1; omega
  | succ n ih =>
    intro f2 p s h1 h2
    match f2, h2 with
    | m + 1, _ =>
      show globGo (n + 1) p s = globGo (m + 1) p s
      cases p with
      | nil => rfl
      | cons c p' =>
        simp only [globGo]
        by_cases hc : c = '*'
        · simp only [if_pos hc]
          cases s with
          | nil =>
            show (globGo n p' [] || false) = (globGo m p' [] || false)
            rw [ih m p' []] <;> simp_all
          | cons d s' =>
            show (globGo n p' (d :: s') || globGo n (c :: p') s')
                = (globGo m p' (d :: s') || globGo m (c :: p') s')
            rw [ih m p' (d :: s'), ih m (c :: p') s'] <;> simp_all <;> omega
        · simp only [if_neg hc]
          cases s with
          | nil => rfl
          | cons d s' =>
            by_cases hq : c = '?'
            · simp only [if_pos hq]
              rw [ih m p' s'] <;> simp_all <;> omega
            · simp only [if_neg hq]
              rw [ih m p' s'] <;> simp_all <;> omega

/-- One-step unfolding of `globGo` at explicit fuel: empty pattern. -/
theorem globGo_nil (f : Nat) (s : List Char) : globGo (f + 1) [] s = s.isEmpty := rfl

theorem globGo_star_nil (f : Nat) (p : List Char) :
    globGo (f + 1) ('*' :: p) [] = globGo f p [] := by
  simp [globGo]

theorem globGo_star_cons (f : Nat) (p : List Char) (d : Char) (s' : List Char) :
    globGo (f + 1) ('*' :: p) (d :: s')
      = (globGo f p (d :: s') || globGo f ('*' :: p) s') := by
  simp [globGo]

theorem globGo_q_nil (f : Nat) (p : List Char) :
    globGo (f + 1) ('?' :: p) [] = false := rfl

theorem globGo_q_cons (f : Nat) (p : List Char) (d : Char) (s' : List Char) :
    globGo (f + 1) ('?' :: p) (d :: s') = globGo f p s' := by
  simp [globGo]

theorem globGo_lit_nil (f : Nat) (c : Char) (hc1 : c ≠ '*') (p : List Char) :
    globGo (f + 1) (c :: p) [] = false := by
  simp only [globGo, if_neg hc1]

theorem globGo_lit_cons (f : Nat) (c : Char) (hc1 : c ≠ '*') (hc2 : c ≠ '?')
    (p : List Char) (d : Char) (s' : List Char) :
    globGo (f + 1) (c :: p) (d :: s') = ((c == d) && globGo f p s') := by
  simp only [globGo, if_neg hc1, if_neg hc2]

/-- `MATCH` semantics on strings: pattern against key. -/
def globMatch (p s : String) : Bool :=
  globGo (p.data.length + s.data.length + 1) p.data s.data

/-- Character-list form, with a canonical fuel. -/
def globM (p s : List Char) : Bool := globGo (p.length + s.length + 1) p s

theorem globMatch_eq_globM (p s : String) : globMatch p s = globM p.data s.data := rfl

/-- Any sufficient fuel computes `globM`. -/
theorem globGo_eq_globM (f : Nat) (p s : List Char)
    (h : p.length + s.length < f) : globGo f p s = globM p s :=
  globGo_congr f (p.length + s.length + 1) p s h (by omega)

/-- Unfolding: the empty pattern matches only the empty string. -/
theorem globM_nil (s : List Char) : globM [] s = s.isEmpty := by
  cases s <;> rfl

theorem globM_star_nil (p : List Char) : globM ('*' :: p) [] = globM p [] := by
  show globGo (('*' :: p).length + [].length + 1) ('*' :: p) [] = _
  rw [globGo_star_nil, globGo_eq_globM] ; simp

theorem globM_star_cons (p : List Char) (d : Char) (s' : List Char) :
    globM ('*' :: p) (d :: s') = (globM p (d :: s') || globM ('*' :: p) s') := by
  show globGo (('*' :: p).length + (d :: s').length + 1) ('*' :: p) (d :: s') = _
  rw [globGo_star_cons,
      globGo_eq_globM (('*' :: p).length + (d :: s').length) p (d :: s') (by simp),
      globGo_eq_globM (('*' :: p).length + (d :: s').length) ('*' :: p) s' (by simp)]

theorem globM_q_nil (p : List Char) : globM ('?' :: p) [] = false := rfl

theorem globM_q_cons (p : List Char) (d : Char) (s' : List Char) :
    globM ('?' :: p) (d :: s') = globM p s' := by
  show globGo (('?' :: p).length + (d :: s').length + 1) ('?' :: p) (d :: s') = _
  rw [globGo_q_cons,
      globGo_eq_globM (('?' :: p).length + (d :: s').length) p s' (by simp; omega)]

theorem globM_lit_nil (c : Char) (hc1 : c ≠ '*') (p : List Char) :
    globM (c :: p) [] = false := by
  show globGo ((c :: p).length + [].length + 1) (c :: p) [] = _
  rw [globGo_lit_nil _ _ hc1]

theorem globM_lit_cons (c : Char) (hc1 : c ≠ '*') (hc2 : c ≠ '?')
    (p : List Char) (d : Char) (s' : List Char) :
    globM (c :: p) (d :: s') = ((c == d) && globM p s') := by
  show globGo ((c :: p).length + (d :: s').length + 1) (c :: p) (d :: s') = _
  rw [globGo_lit_cons _ _ hc1 hc2,
      globGo_eq_globM ((c :: p).length + (d :: s').length) p s' (by simp; omega)]

example : globMatch "analytics:*:bitcoin:*" "analytics:x:bitcoin:20" = true := by decide
example : globMatch "price:bitcoin" "price:bitcoin:latest" = false := by decide
example : globMatch "a?c" "abc" = true := by decide

/-! ## Redis backend model

One backend slot is a key plus either a live `(serialized value, ttl)` pair
or a tombstone left by `DEL`.  Tombstones keep positions stable, so an
in-progress cursor `SCAN` is well defined while keys are being deleted —
the SCAN guarantee that keys present throughout the iteration are visited.
`failAfter = some n` models an outage: the next `n` backend commands
succeed, every later one raises. -/

abbrev Entry := String × Option (String × Nat)

structure Redis where
  entries : List Entry
  batch : Nat
  failAfter : Option Nat

/-- Cache-layer computations: Redis state threading plus Python exceptions.
The state at the raise point is preserved (work already done stays done). -/
def M (α : Type) : Type := Redis → Redis × Except Unit α

instance monadM : Monad M where
  pure a := fun r => (r, Except.ok a)
  bind x f := fun r =>
    match x r with
    | (r', Except.ok a) => f a r'
    | (r', Except.error e) => (r', Except.error e)

/-- An unconditional raise. -/
def mThrow {α : Type} : M α := fun r => (r, Except.error ())

/-- `try: body / except: return fallback` — the failure state is kept. -/
def attempt {α : Type} (body : M α) (fallback : α) : M α := fun r =>
  match body r with
  | (r', Except.ok a) => (r', Except.ok a)
  | (r', Except.error _) => (r', Except.ok fallback)

/-- Availability bookkeeping, charged once per backend command. -/
def tick : M Unit := fun r =>
  match r.failAfter with
  | Option.none => (r, Except.ok ())
  | some 0 => (r, Except.error ())
  | some (k + 1) => (⟨r.entries, r.batch, some k⟩, Except.ok ())

def getState : M Redis := fun r => (r, Except.ok r)

def setEntries (l : List Entry) : M Unit := fun r =>
  (⟨l, r.batch, r.failAfter⟩, Except.ok ())

/-- The keys currently holding a value. -/
def liveKeys (l : List Entry) : List String :=
  l.filterMap (fun e => if e.2.isSome then some e.1 else Option.none)

/-- The live `(value, ttl)` stored under a key, if any. -/
def lookupLive (l : List Entry) (k : String) : Option (String × Nat) :=
  match l.find? (fun e => e.1 == k) with
  | some (_, some vt) => some vt
  | _ => Option.none

/-- `SETEX`-shaped store update: overwrite the slot of `k`, or append. -/
def upsert (l : List Entry) (k : String) (v : String) (ttl : Nat) : List Entry :=
  match l with
  | [] => [(k, some (v, ttl))]
  | e :: rest =>
    if e.1 == k then (k, some (v, ttl)) :: rest else e :: upsert rest k v ttl

/-- `DEL k1 ... kn` tombstones every named key ... -/
def delEntries (ks : List String) (l : List Entry) : List Entry :=
  l.map (fun e => if ks.contains e.1 then (e.1, Option.none) else e)

/-- ... and reports how many of them were actually live. -/
def delCount (ks : List String) (l : List Entry) : Nat :=
  (l.filter (fun e => e.2.isSome && ks.contains e.1)).length

/-- Does a scan see this entry under this pattern: live and matching. -/
def matchesE (pat : String) (e : Entry) : Bool := e.2.isSome && globMatch pat e.1

/-- Tombstone an entry when its key matches the pattern. -/
def purgeE (pat : String) (e : Entry) : Entry :=
  if globMatch pat e.1 then (e.1, Option.none) else e

/-- Tombstone every entry whose key matches the pattern. -/
def purge (pat : String) (l : List Entry) : List Entry := l.map (purgeE pat)

/-- How many live keys match the pattern. -/
def countLiveMatch (pat : String) (l : List Entry) : Nat :=
  (l.filter (matchesE pat)).length

/-- The live matching keys, in slot order — what a scan over `l` reports. -/
def scanKeys (pat : String) (l : List Entry) : List String :=
  (l.filter (matchesE pat)).map Prod.fst

/-- `GET key`. -/
def redisGet (k : String) : M (Option String) := do
  tick
  let r ← getState
  pure ((lookupLive r.entries k).map Prod.fst)

/-- `SETEX key ttl value`. -/
def redisSetex (k : String) (ttl : Nat) (v : String) : M Unit := do
  tick
  let r ← getState
  setEntries (upsert r.entries k v ttl)

/-- `DEL key1 ... keyn`, returning the number of keys removed. -/
def redisDelete (ks : List String) : M Nat := do
  tick
  let r ← getState
  let n := delCount ks r.entries
  setEntries (delEntries ks r.entries)
  pure n

/-- `SCAN cursor MATCH pattern`: examine the next `batch` slots, return the
matching live keys among them and the follow-up cursor (`0` when the
keyspace is exhausted). -/
def redisScan (cursor : Nat) (pat : String) : M (Nat × List String) := do
  tick
  let r ← getState
  let slice := (r.entries.drop cursor).take r.batch
  let ks := scanKeys pat slice
  let next := if cursor + r.batch < r.entries.length then cursor + r.batch else 0
  pure (next, ks)

/-! ## Pattern deletion (shared loop)

`CacheManager.delete_pattern`, `EventBasedInvalidation._delete_pattern` and
`ManualInvalidation.invalidate_pattern` all run the same loop:
`cursor = 0; while True: cursor, keys = scan(cursor, match=pattern);
if keys: deleted += delete(*keys); if cursor == 0: break`, inside a
`try/except` whose handler logs and returns `0`.  The fuel — seeded with
`entry count + 1` — dominates the iteration count because the cursor
advances by `batch ≥ 1` until the scan returns the 0 sentinel. -/

def deleteLoop (pat : String) : Nat → Nat → Nat → M Nat
  | 0, _, acc => pure acc
  | fuel + 1, cursor, acc => do
    let sr ← redisScan cursor pat
    let acc' ←
      (if sr.2.isEmpty then pure acc
       else do
         let n ← redisDelete sr.2
         pure (acc + n))
    if sr.1 = 0 then pure acc' else deleteLoop pat fuel sr.1 acc'

def deletePatternImpl (pat : String) : M Nat := fun r =>
  attempt (deleteLoop pat (r.entries.length + 1) 0 0) 0 r

/-! ## `CacheManager` (shared/utils/cache.py) -/

namespace CacheManager

/-- `CacheManager.get` with `deserialize=True`: missing or falsy values give
`None`; a `json.loads` failure is caught by the method's own `except` and
also gives `None`. -/
def get (key : String) : M (Option Json) :=
  attempt
    (do
      let v? ← redisGet key
      match v? with
      | some v =>
        if v ≠ "" then
          match loads v with
          | some j => pure (some j)
          | Option.none => mThrow
        else pure Option.none
      | Option.none => pure Option.none)
    Option.none

/-- `CacheManager.set` with `serialize=True`: `True` on success, `False`
when the backend raises. -/
def set (key : String) (value : Json) (ttl : Nat) : M Bool :=
  attempt
    (do
      redisSetex key ttl (dumps value)
      pure true)
    false

/-- `CacheManager.delete`: the count returned by the backend `DEL` is
discarded; `True` is returned whenever the command does not raise. -/
def delete (key : String) : M Bool :=
  attempt
    (do
      let _ ← redisDelete [key]
      pure true)
    false

/-- `CacheManager.delete_pattern`. -/
def delete_pattern (pat : String) : M Nat := deletePatternImpl pat

end CacheManager

/-! ## Invalidation strategies (shared/utils/cache_invalidation.py) -/

namespace EventBasedInvalidation

/-- `EventBasedInvalidation._delete_pattern` (the same loop and `except` as
`CacheManager.delete_pattern`). -/
def _delete_pattern (pat : String) : M Nat := deletePatternImpl pat

/-- `deleted = 0; for pattern in patterns: deleted += _delete_pattern(...)`. -/
def runPatterns : List String → M Nat
  | [] => pure 0
  | p :: ps => do
    let n ← _delete_pattern p
    let m ← runPatterns ps
    pure (n + m)

/-- `invalidate_price_update(coin_id)`. -/
def invalidate_price_update (coin_id : String) : M Nat :=
  runPatterns
    ["price:" ++ coin_id, "analytics:*:" ++ coin_id ++ ":*", "portfolio_perf:*:*"]

/-- `invalidate_user_update(user_id)`. -/
def invalidate_user_update (user_id : String) : M Nat :=
  runPatterns
    ["user:" ++ user_id, "portfolio:" ++ user_id ++ ":*",
     "portfolio_perf:" ++ user_id ++ ":*", "session:*user_id=" ++ user_id ++ "*"]

end EventBasedInvalidation

namespace ManualInvalidation

/-- `ManualInvalidation.invalidate`: unlike `CacheManager.delete`, it checks
the backend's count and reports whether something was removed. -/
def invalidate (key : String) : M Bool :=
  attempt
    (do
      let n ← redisDelete [key]
      pure (decide (n ≠ 0)))
    false

/-- `ManualInvalidation.invalidate_pattern`. -/
def invalidate_pattern (pat : String) : M Nat := deletePatternImpl pat

end ManualInvalidation

/-! ## TTL tables

`CacheConfig` is the policy table of `shared/config/__init__.py` (the
spec's `ttl_for`).  `CACHE_TTLS` is the *separate* table hard-coded at the
top of `shared/cache_warmer.py`, which the warmer's writes actually use —
the warmer never reads `CacheConfig`. -/

namespace CacheConfig

def PRICE_TTL : Nat := 10
def ANALYTICS_TTL : Nat := 60
def SENTIMENT_TTL : Nat := 300
def SENTIMENT_TREND_TTL : Nat := 600
def PORTFOLIO_TTL : Nat := 600
def PORTFOLIO_PERF_TTL : Nat := 300
def USER_TTL : Nat := 900
def SESSION_TTL : Nat := 86400

end CacheConfig

def CACHE_TTLS : String → Option Nat := fun k =>
  List.lookup k
    [("prices", 60), ("analytics", 300), ("sentiment", 600),
     ("market_summary", 300), ("trending_coins", 600)]

/-! ## Cache warmer (shared/cache_warmer.py)

The database query is an excluded collaborator: the warm functions are
modelled on the row lists the query returns (already ordered by entity and
descending timestamp, fields already stringified the way the code does
with `str(...)` / `isoformat()`).  The code's "group and keep the first
occurrence" dict is `dedupBy`. -/

structure PriceRow where
  coin_id : String
  price : String
  timestamp : String
  change_24h : String

structure MetricRow where
  coin_id : String
  metric_type : String
  value : String
  timestamp : String

def dedupByAux {α β : Type} [BEq β] (f : α → β) (seen : List β) : List α → List α
  | [] => []
  | x :: rest =>
    if seen.contains (f x) then dedupByAux f seen rest
    else x :: dedupByAux f (f x :: seen) rest

/-- Keep the first occurrence per grouping key (dict insertion order). -/
def dedupBy {α β : Type} [BEq β] (f : α → β) (l : List α) : List α :=
  dedupByAux f [] l

namespace CacheWarmer

/-- The JSON payload `warm_prices` caches per coin. -/
def priceValue (row : PriceRow) : Json :=
  .obj [("price", .str row.price), ("timestamp", .str row.timestamp),
        ("change_24h", .str row.change_24h)]

/-- The JSON payload `warm_analytics` caches per (coin, metric). -/
def metricValue (row : MetricRow) : Json :=
  .obj [("value", .str row.value), ("timestamp", .str row.timestamp),
        ("metric_type", .str row.metric_type)]

def warmPricesGo : List PriceRow → Nat → M Nat
  | [], acc => pure acc
  | row :: rest, acc => do
    redisSetex ("price:" ++ row.coin_id ++ ":latest")
      ((CACHE_TTLS "prices").getD 0) (dumps (priceValue row))
    warmPricesGo rest (acc + 1)

/-- `warm_prices`: one `SETEX price:{coin}:latest` per (deduplicated) coin,
with `CACHE_TTLS["prices"]`; any failure is caught and reported as `0`. -/
def warm_prices (rows : List PriceRow) : M Nat :=
  attempt (warmPricesGo (dedupBy PriceRow.coin_id rows) 0) 0

def warmAnalyticsGo : List MetricRow → Nat → M Nat
  | [], acc => pure acc
  | row :: rest, acc => do
    redisSetex ("analytics:" ++ row.coin_id ++ ":" ++ row.metric_type ++ ":latest")
      ((CACHE_TTLS "analytics").getD 0) (dumps (metricValue row))
    warmAnalyticsGo rest (acc + 1)

/-- `warm_analytics`: one `SETEX analytics:{coin}:{metric}:latest` per
(deduplicated) pair, with `CACHE_TTLS["analytics"]`. -/
def warm_analytics (rows : List MetricRow) : M Nat :=
  attempt
    (warmAnalyticsGo (dedupBy (fun row => (row.coin_id, row.metric_type)) rows) 0) 0

end CacheWarmer

/-! ## The `cached` decorator (shared/utils/cache.py)

Keyword arguments are an association list; the `_redis` entry may carry the
live backend client (`KwArg.client`) or an ordinary value.  The decorator is
modelled with `serialize_json=True` and no custom `key_builder` (the
defaults; no call site in the repository passes either).  The second
component of the wrapper's result counts invocations of the wrapped
function — the spec's "call counter on a stub computation".  A truthy
non-client `_redis` value would fail attribute access inside both `try`
blocks and reduce to the direct path, so the embedding routes every
non-client value to the direct call. -/

inductive KwArg where
  | val (a : Arg)
  | client
  deriving DecidableEq, Repr

def kwTruthy : Option KwArg → Bool
  | Option.none => false
  | some .client => true
  | some (.val a) => pyTruthy a

/-- `kwargs.pop("_redis", None)`: the popped value and the remaining kwargs. -/
def popRedis (kwargs : List (String × KwArg)) :
    Option KwArg × List (String × KwArg) :=
  (List.lookup "_redis" kwargs, kwargs.eraseP (fun kv => kv.1 == "_redis"))

/-- The wrapper's first `try` block: `GET` the key and, when the value is
truthy, `json.loads` it and return it; a raised exception (backend failure
or undeserializable bytes) is caught and the block falls through to the
miss path. -/
def wrapperTryGet (key : String) : M (Option Json) :=
  attempt
    (do
      let v? ← redisGet key
      match v? with
      | some v =>
        if v ≠ "" then
          match loads v with
          | some j => pure (some j)
          | Option.none => mThrow
        else pure Option.none
      | Option.none => pure Option.none)
    Option.none

/-- `async_wrapper` produced by `cached(ttl, key_prefix)` on a coroutine. -/
def async_wrapper (ttl : Nat) ( key_prefix : String) (funcName : String)
    (f : List Arg → List (String × KwArg) → Json)
    (args : List Arg) (kwargs : List (String × KwArg)) : M (Json × Nat) :=
  let popped := popRedis kwargs
  let kwargs' := popped.2
  match popped.1 with
  | some KwArg.client =>
    let pre := if key_prefix ≠ "" then key_prefix else funcName
    let key := cache_key args pre ":"
    do
      let hit ← wrapperTryGet key
      match hit with
      | some j => pure (j, 0)
      | Option.none => do
        let result := f args kwargs'
        attempt (redisSetex key ttl (dumps result)) ()
        pure (result, 1)
  | _ => fun r => (r, Except.ok (f args kwargs', 1))

/-- `sync_wrapper`: non-coroutine functions are called directly. -/
def sync_wrapper (f : List Arg → List (String × KwArg) → Json)
    (args : List Arg) (kwargs : List (String × KwArg)) : Json :=
  f args kwargs

/-! ## Claim C1 -/

/-- Claim C1 (code bug): the TTL policy table (`CacheConfig`) does list
price 10s / analytics 60s / sentiment 300s, but the cache writes performed
when populating the cache do not use those values: the warmer's private
`CACHE_TTLS` table says prices 60s / analytics 300s / sentiment 600s, and a
`warm_analytics` write stores its entry with TTL 300, a `warm_prices` write
with TTL 60. -/
theorem C1_warmer_ttl_contradicts_policy :
    CacheConfig.PRICE_TTL = 10 ∧ CacheConfig.ANALYTICS_TTL = 60 ∧
    CacheConfig.SENTIMENT_TTL = 300 ∧
    CACHE_TTLS "prices" = some 60 ∧ CACHE_TTLS "analytics" = some 300 ∧
    CACHE_TTLS "sentiment" = some 600 ∧
    (let out := CacheWarmer.warm_analytics
        [⟨"ethereum", "SMA", "2900.5", "2024-01-01T00:00:00"⟩]
        ⟨[], 1, Option.none⟩
     out.2 = Except.ok 1 ∧
       (lookupLive out.1.entries "analytics:ethereum:SMA:latest").map Prod.snd
         = some 300) ∧
    (let outP := CacheWarmer.warm_prices
        [⟨"bitcoin", "42000.1", "2024-01-01T00:00:00", "1.2"⟩]
        ⟨[], 1, Option.none⟩
     (lookupLive outP.1.entries "price:bitcoin:latest").map Prod.snd = some 60) :=
  ⟨rfl, rfl, rfl, rfl, rfl, rfl, ⟨rfl, rfl⟩, rfl⟩

/-! ## Claim C6 -/

/-- Claim C6 (code bug): deleting an absent key through the adapter does
not return false.  On an empty backend `CacheManager.delete` still returns
`True` (its docstring says "True if deleted"), because the count returned
by the backend `DEL` is discarded; `ManualInvalidation.invalidate` on the
same input returns `False` as the claim expects. -/
theorem C6_delete_true_on_absent_key :
    (CacheManager.delete "user:42" ⟨[], 1, Option.none⟩).2 = Except.ok true ∧
    (CacheManager.delete "user:42" ⟨[], 1, Option.none⟩).1.entries = [] ∧
    (ManualInvalidation.invalidate "user:42" ⟨[], 1, Option.none⟩).2
      = Except.ok false :=
  ⟨rfl, rfl, rfl⟩

/-! ## Claim C3 -/

/-- Claim C3 (counterexample): key construction is not collision-free and
silently drops parameters.  The distinct argument lists `["a", "b"]` and
`["a:b"]` build the byte-identical key `"a:b"`, and a supplied `None`
parameter is omitted from the key without any error being raised (there is
no `InvalidKeySpec` anywhere in the code). -/
theorem C3_counterexample :
    cache_key [.s "a", .s "b"] "" ":" = cache_key [.s "a:b"] "" ":" ∧
    ([Arg.s "a", Arg.s "b"] ≠ [Arg.s "a:b"]) ∧
    cache_key [.none, .s "x"] "user" ":" = cache_key [.s "x"] "user" ":" := by
  refine ⟨by decide, by decide, by decide⟩

theorem stringDataInj : Function.Injective String.data := by
  intro a b h
  cases a; cases b; exact congrArg String.mk h

theorem intercalateList_cons {α : Type} (sep x : List α) (xs : List (List α)) :
    List.intercalate sep (x :: xs) = x ++ (xs.map (fun b => sep ++ b)).flatten := by
  induction xs generalizing x with
  | nil => simp [List.intercalate]
  | cons y ys ih =>
    have h := ih y
    simp only [List.intercalate] at h ⊢
    rw [List.intersperse_cons_cons]
    simp only [List.flatten_cons, List.map_cons, h, List.flatten]
    simp [List.append_assoc]

theorem interGo_data (s : String) :
    ∀ (as : List String) (acc : String),
      (String.intercalate.go acc s as).data
        = acc.data ++ (as.map (fun a => s.data ++ a.data)).flatten := by
  intro as
  induction as with
  | nil => intro acc; simp [String.intercalate.go]
  | cons a as ih =>
    intro acc
    simp [String.intercalate.go, ih, List.append_assoc]

/-- `String.intercalate` is the string image of `List.intercalate`. -/
theorem intercalate_data (s : String) (l : List String) :
    (String.intercalate s l).data = List.intercalate s.data (l.map String.data) := by
  cases l with
  | nil => rfl
  | cons a as =>
    show (String.intercalate.go a s as).data = _
    rw [interGo_data, List.map_cons, intercalateList_cons, List.map_map]
    rfl

theorem filterMap_argEncode_map_s (xs : List String) :
    (xs.map Arg.s).filterMap argEncode = xs := by
  induction xs with
  | nil => rfl
  | cons x r ih => simp [argEncode, ih]

theorem intercalateColon_inj (ps qs : List String)
    (hp : ∀ x ∈ ps, ':' ∉ x.data) (hq : ∀ y ∈ qs, ':' ∉ y.data)
    (hpn : ps ≠ []) (hqn : qs ≠ [])
    (h : String.intercalate ":" ps = String.intercalate ":" qs) : ps = qs := by
  have hd := congrArg String.data h
  rw [intercalate_data, intercalate_data] at hd
  have hcol : (":" : String).data = [':'] := rfl
  rw [hcol] at hd
  have hsplit := congrArg (fun l : List Char => l.splitOn ':') hd
  simp only at hsplit
  rw [List.splitOn_intercalate (ps.map String.data) ':'
        (by intro l hl
            obtain ⟨x, hx, rfl⟩ := List.mem_map.mp hl
            exact hp x hx)
        (by simpa using hpn),
      List.splitOn_intercalate (qs.map String.data) ':'
        (by intro l hl
            obtain ⟨y, hy, rfl⟩ := List.mem_map.mp hl
            exact hq y hy)
        (by simpa using hqn)] at hsplit
  exact List.map_injective_iff.mpr stringDataInj hsplit

theorem intercalateColon_ne_empty (y : String) (ys : List String) (hy : y ≠ "") :
    String.intercalate ":" (y :: ys) ≠ "" := by
  intro h
  have hd := congrArg String.data h
  rw [intercalate_data, List.map_cons, intercalateList_cons] at hd
  obtain ⟨h1, _⟩ := List.append_eq_nil.mp hd
  exact hy (stringDataInj h1)

/-- Claim C3 (amended): `cache_key` is deterministic and total — it never
raises (there is no `InvalidKeySpec` in the code); every `str`/`int`/`float`
positional parameter is joined in order, while parameters of unsupported
types are silently omitted (keyword parameters never reach `cache_key` at
all), so distinct parameter sets can collide in general.  Restricted to
nonempty separator-free string parameters under a separator-free prefix,
key construction is collision-free. -/
theorem C3_amended :
    (∀ (pre : String) (xs ys : List String),
        (∀ x ∈ xs, ':' ∉ x.data ∧ x ≠ "") →
        (∀ y ∈ ys, ':' ∉ y.data ∧ y ≠ "") →
        ':' ∉ pre.data →
        cache_key (xs.map Arg.s) pre ":" = cache_key (ys.map Arg.s) pre ":" →
        xs = ys) ∧
    (∀ (args : List Arg) (pre sep : String),
        cache_key (Arg.none :: args) pre sep = cache_key args pre sep) := by
  constructor
  · intro pre xs ys h1 h2 h3 h
    have hkey : ∀ zs : List String,
        cache_key (zs.map Arg.s) pre ":"
          = String.intercalate ":" ((if pre ≠ "" then [pre] else []) ++ zs) := by
      intro zs
      show String.intercalate ":"
          ((if pre ≠ "" then [pre] else []) ++ (zs.map Arg.s).filterMap argEncode) = _
      rw [filterMap_argEncode_map_s]
    rw [hkey xs, hkey ys] at h
    by_cases hpre : pre = ""
    · subst hpre
      simp only [ne_eq, not_true_eq_false, if_neg, ite_false, List.nil_append,
        not_false_eq_true] at h
      cases xs with
      | nil =>
        cases ys with
        | nil => rfl
        | cons y ys' =>
          rw [show String.intercalate ":" ([] : List String) = "" from rfl] at h
          exact absurd h.symm (intercalateColon_ne_empty y ys' (h2 y (by simp)).2)
      | cons x xs' =>
        cases ys with
        | nil =>
          rw [show String.intercalate ":" ([] : List String) = "" from rfl] at h
          exact absurd h (intercalateColon_ne_empty x xs' (h1 x (by simp)).2)
        | cons y ys' =>
          exact intercalateColon_inj _ _ (fun x hx => (h1 x hx).1)
            (fun y hy => (h2 y hy).1) (by simp) (by simp) h
    · have hif : (if pre ≠ "" then [pre] else []) = [pre] := if_pos hpre
      rw [hif] at h
      have hcons := intercalateColon_inj (pre :: xs) (pre :: ys)
        (by
          intro z hz
          rcases List.mem_cons.mp hz with hz | hz
          · exact hz ▸ h3
          · exact (h1 z hz).1)
        (by
          intro z hz
          rcases List.mem_cons.mp hz with hz | hz
          · exact hz ▸ h3
          · exact (h2 z hz).1)
        (by simp) (by simp) h
      simpa using hcons
  · intro args pre sep
    simp [cache_key, List.filterMap_cons, argEncode]

/-- Witness for `C3_amended` at the spec's concrete analytics parameters. -/
theorem C3_amended_witness :
    (∀ x ∈ ["ethereum", "20"], ':' ∉ x.data ∧ x ≠ "") ∧
    ':' ∉ "analytics".data ∧
    (["ethereum", "20"] : List String) = ["ethereum", "20"] ∧
    cache_key [Arg.none, .s "q"] "p" ":" = cache_key [.s "q"] "p" ":" :=
  ⟨by decide, by decide,
   C3_amended.1 "analytics" ["ethereum", "20"] ["ethereum", "20"]
     (by decide) (by decide) (by decide) rfl,
   C3_amended.2 [.s "q"] "p" ":"⟩

/-! ## Claim C10 -/

/-- Claim C10: the decorator degenerates to the identity in two cases.  A
non-coroutine function is wrapped by `sync_wrapper`, which calls it
directly; a coroutine invoked without a truthy `_redis` keyword argument is
awaited directly with `_redis` removed from the kwargs, and the backend
state is returned untouched — since `failAfter` is arbitrary (including
`some 0`, where any backend command would raise or consume the budget), an
unchanged state means no cache read or write was even attempted. -/
theorem C10_decorator_identity :
    (∀ (f : List Arg → List (String × KwArg) → Json)
       (args : List Arg) (kwargs : List (String × KwArg)),
        sync_wrapper f args kwargs = f args kwargs) ∧
    (∀ (ttl : Nat) (kp fn : String) (f : List Arg → List (String × KwArg) → Json)
       (args : List Arg) (kwargs : List (String × KwArg)) (r : Redis),
        kwTruthy (List.lookup "_redis" kwargs) = false →
        async_wrapper ttl kp fn f args kwargs r
          = (r, Except.ok (f args (kwargs.eraseP (fun kv => kv.1 == "_redis")), 1))) := by
  refine ⟨fun f args kwargs => rfl, ?_⟩
  intro ttl kp fn f args kwargs r h
  cases hl : List.lookup "_redis" kwargs with
  | none => simp [async_wrapper, popRedis, hl]
  | some kw =>
    cases kw with
    | client => rw [hl] at h; simp [kwTruthy] at h
    | val a => simp [async_wrapper, popRedis, hl]

/-- Witness for `C10_decorator_identity` on a concrete stub computation and
a backend state where every command would raise. -/
theorem C10_witness :
    kwTruthy (List.lookup "_redis"
      ([("user_id", KwArg.val (.s "42"))] : List (String × KwArg))) = false ∧
    async_wrapper 300 "user" "get_user" (fun _ _ => Json.num 7) [.s "42"]
        [("user_id", KwArg.val (.s "42"))] ⟨[], 1, some 0⟩
      = (⟨[], 1, some 0⟩,
          Except.ok (Json.num 7, 1)) ∧
    sync_wrapper (fun _ _ => Json.num 7) [.s "42"] [] = Json.num 7 :=
  ⟨rfl,
   by
     have h := C10_decorator_identity.2 300 "user" "get_user"
       (fun _ _ => Json.num 7) [.s "42"] [("user_id", KwArg.val (.s "42"))]
       ⟨[], 1, some 0⟩ rfl
     simpa using h,
   C10_decorator_identity.1 (fun _ _ => Json.num 7) [.s "42"] []⟩

/-! ## Round-trip of `loads` over `dumps` -/

/-- The reader for numbers is greedy; its surrounding text must not
continue with a digit. -/
def headNotDigit : List Char → Bool
  | [] => true
  | c :: _ => !c.isDigit

mutual

/-- Fuel needed by `readV` to read a serialized value back. -/
def sizeV : Json → Nat
  | .null => 1
  | .bool _ => 1
  | .num _ => 1
  | .str _ => 1
  | .arr xs => 1 + sizeElems xs
  | .obj fs => 1 + sizeFields fs
  termination_by structural v => v

def sizeElems : List Json → Nat
  | [] => 0
  | x :: r => 1 + sizeV x + sizeElems r
  termination_by structural xs => xs

def sizeFields : List (String × Json) → Nat
  | [] => 0
  | (_, v) :: r => 1 + sizeV v + sizeFields r
  termination_by structural fs => fs

end

theorem digitChar_isDigit (m : Nat) (h : m < 10) :
    (Nat.digitChar m).isDigit = true := by
  interval_cases m <;> decide

theorem digitChar_val (m : Nat) (h : m < 10) :
    (Nat.digitChar m).toNat - 48 = m := by
  interval_cases m <;> decide

theorem natCharsGo_digits :
    ∀ (fuel n : Nat), ∀ c ∈ natCharsGo fuel n, c.isDigit = true := by
  intro fuel
  induction fuel with
  | zero => intro n c hc; simp [natCharsGo] at hc
  | succ f ih =>
    intro n c hc
    by_cases h : n < 10
    · simp only [natCharsGo, if_pos h, List.mem_singleton] at hc
      exact hc ▸ digitChar_isDigit n h
    · simp only [natCharsGo, if_neg h, List.mem_append, List.mem_singleton] at hc
      rcases hc with hc | hc
      · exact ih (n / 10) c hc
      · exact hc ▸ digitChar_isDigit (n % 10) (Nat.mod_lt n (by omega))

theorem natCharsGo_foldl :
    ∀ (fuel n : Nat), n < fuel →
      (natCharsGo fuel n).foldl (fun a c => 10 * a + (c.toNat - 48)) 0 = n := by
  intro fuel
  induction fuel with
  | zero => intro n h; omega
  | succ f ih =>
    intro n h
    by_cases h10 : n < 10
    · simp only [natCharsGo, if_pos h10, List.foldl_cons, List.foldl_nil]
      rw [digitChar_val n h10]
      omega
    · simp only [natCharsGo, if_neg h10, List.foldl_append, List.foldl_cons,
        List.foldl_nil]
      rw [ih (n / 10) (by omega), digitChar_val (n % 10) (Nat.mod_lt n (by omega))]
      omega

theorem natCharsGo_ne_nil (fuel n : Nat) (h : n < fuel) :
    natCharsGo fuel n ≠ [] := by
  match fuel, h with
  | f + 1, _ =>
    by_cases h10 : n < 10
    · simp [natCharsGo, if_pos h10]
    · simp [natCharsGo, if_neg h10]

theorem natChars_digits (n : Nat) : ∀ c ∈ natChars n, c.isDigit = true :=
  natCharsGo_digits (n + 1) n

theorem natChars_foldl (n : Nat) :
    (natChars n).foldl (fun a c => 10 * a + (c.toNat - 48)) 0 = n :=
  natCharsGo_foldl (n + 1) n (by omega)

theorem natChars_ne_nil (n : Nat) : natChars n ≠ [] :=
  natCharsGo_ne_nil (n + 1) n (by omega)

theorem readNatAux_spec (ds : List Char) (hds : ∀ c ∈ ds, c.isDigit = true) :
    ∀ (rest : List Char) (acc : Nat), headNotDigit rest = true →
      readNatAux acc (ds ++ rest)
        = (ds.foldl (fun a c => 10 * a + (c.toNat - 48)) acc, rest) := by
  induction ds with
  | nil =>
    intro rest acc hrest
    cases rest with
    | nil => rfl
    | cons c r =>
      simp only [headNotDigit, Bool.not_eq_true'] at hrest
      simp [readNatAux, hrest]
  | cons d ds' ih =>
    intro rest acc hrest
    have hd : d.isDigit = true := hds d (by simp)
    simp only [List.cons_append, readNatAux, if_pos hd, List.foldl_cons]
    exact ih (fun c hc => hds c (by simp [hc])) rest _ hrest

theorem readStrGo_quote (rest : List Char) :
    readStrGo false ('"' :: rest) = some ([], rest) := by
  simp [readStrGo, show ('"' : Char) ≠ '\\' from by decide]

theorem readStrGo_esc (c : Char) (rest : List Char) :
    readStrGo false ('\\' :: c :: rest)
      = (readStrGo false rest).map (fun p => (c :: p.1, p.2)) := by
  simp [readStrGo]

theorem readStrGo_other (c : Char) (h1 : c ≠ '\\') (h2 : c ≠ '"')
    (rest : List Char) :
    readStrGo false (c :: rest)
      = (readStrGo false rest).map (fun p => (c :: p.1, p.2)) := by
  simp [readStrGo, h1, h2]

theorem readStrGo_escape : ∀ (s rest : List Char),
    readStrGo false (escapeChars s ++ '"' :: rest) = some (s, rest) := by
  intro s
  induction s with
  | nil => intro rest; exact readStrGo_quote rest
  | cons c s' ih =>
    intro rest
    by_cases hc : c = '"' ∨ c = '\\'
    · simp only [escapeChars, if_pos hc, List.cons_append]
      rw [readStrGo_esc, ih rest]
      rfl
    · simp only [escapeChars, if_neg hc, List.cons_append]
      push_neg at hc
      rw [readStrGo_other c hc.2 hc.1, ih rest]
      rfl

theorem readStr_escape (s rest : List Char) :
    readStrBody (escapeChars s ++ '"' :: rest) = some (s, rest) :=
  readStrGo_escape s rest

theorem isDigit_ne_delims (c : Char) (h : c.isDigit = true) :
    c ≠ 'n' ∧ c ≠ 't' ∧ c ≠ 'f' ∧ c ≠ '"' ∧ c ≠ '[' ∧ c ≠ openBrace ∧
      c ≠ '-' ∧ c ≠ ']' ∧ c ≠ closeBrace := by
  refine ⟨?_, ?_, ?_, ?_, ?_, ?_, ?_, ?_, ?_⟩ <;>
    · intro hc; rw [hc] at h; exact absurd h (by decide)

/-- The first character of a serialized value is never a closing
delimiter. -/
theorem dumpsV_head (v : Json) :
    ∃ c t, dumpsV v = c :: t ∧ c ≠ ']' ∧ c ≠ closeBrace := by
  cases v with
  | null => exact ⟨'n', _, rfl, by decide, by decide⟩
  | bool b => cases b with
    | true => exact ⟨'t', _, rfl, by decide, by decide⟩
    | false => exact ⟨'f', _, rfl, by decide, by decide⟩
  | num n =>
    show ∃ c t, intChars n = c :: t ∧ _
    by_cases hn : n < 0
    · exact ⟨'-', _, by rw [intChars, if_pos hn], by decide, by decide⟩
    · rw [intChars, if_neg hn]
      obtain ⟨c, t, hct⟩ := List.exists_cons_of_ne_nil (natChars_ne_nil n.toNat)
      have hd : c.isDigit = true := natChars_digits n.toNat c (by simp [hct])
      have hne := isDigit_ne_delims c hd
      exact ⟨c, t, hct, hne.2.2.2.2.2.2.2.1, hne.2.2.2.2.2.2.2.2⟩
  | str s => exact ⟨'"', _, rfl, by decide, by decide⟩
  | arr xs => exact ⟨'[', _, rfl, by decide, by decide⟩
  | obj fs => exact ⟨openBrace, _, rfl, by decide, by decide⟩

/-- A serialized value is never the empty byte string (so a freshly written
cache line is always truthy in Python). -/
theorem dumpsV_ne_nil (v : Json) : dumpsV v ≠ [] := by
  obtain ⟨c, t, h, -, -⟩ := dumpsV_head v
  simp [h]

mutual

theorem sizeV_le : ∀ v : Json, sizeV v ≤ (dumpsV v).length
  | .null => by simp [sizeV, dumpsV]
  | .bool b => by cases b <;> simp [sizeV, dumpsV]
  | .num n => by
    have h := dumpsV_ne_nil (.num n)
    have hlen : (dumpsV (.num n)).length ≠ 0 := by
      intro h0
      exact h (List.length_eq_zero.mp h0)
    simp only [sizeV]
    omega
  | .str s => by
    show sizeV (.str s) ≤ (dumpsStr s).length
    simp [sizeV, dumpsStr]
  | .arr xs => by
    have h := sizeElems_le xs
    show 1 + sizeElems xs ≤ ('[' :: dumpsArr xs ++ [']']).length
    simp only [List.length_cons, List.length_append, List.length_singleton]
    omega
  | .obj fs => by
    have h := sizeFields_le fs
    show 1 + sizeFields fs ≤ (openBrace :: dumpsObj fs ++ [closeBrace]).length
    simp only [List.length_cons, List.length_append, List.length_singleton]
    omega
  termination_by structural v => v

theorem sizeElems_le : ∀ xs : List Json, sizeElems xs ≤ (dumpsArr xs).length + 1
  | [] => by simp [sizeElems, dumpsArr]
  | [x] => by
    have h := sizeV_le x
    show 1 + sizeV x + sizeElems [] ≤ (dumpsV x).length + 1
    simp [sizeElems]; omega
  | x :: y :: r => by
    have h1 := sizeV_le x
    have h2 := sizeElems_le (y :: r)
    show 1 + sizeV x + sizeElems (y :: r)
        ≤ (dumpsV x ++ ',' :: ' ' :: dumpsArr (y :: r)).length + 1
    simp only [List.length_append, List.length_cons]
    omega
  termination_by structural xs => xs

theorem sizeFields_le :
    ∀ fs : List (String × Json), sizeFields fs ≤ (dumpsObj fs).length + 1
  | [] => by simp [sizeFields, dumpsObj]
  | [(k, v)] => by
    have h := sizeV_le v
    show 1 + sizeV v + sizeFields [] ≤ (dumpsStr k ++ ':' :: ' ' :: dumpsV v).length + 1
    simp only [sizeFields, List.length_append, List.length_cons]
    omega
  | (k, v) :: f :: r => by
    have h1 := sizeV_le v
    have h2 := sizeFields_le (f :: r)
    show 1 + sizeV v + sizeFields (f :: r)
        ≤ (dumpsStr k ++ ':' :: ' ' :: dumpsV v ++ ',' :: ' ' :: dumpsObj (f :: r)).length + 1
    simp only [List.length_append, List.length_cons]
    omega
  termination_by structural fs => fs

end

theorem sizeV_pos (v : Json) : 1 ≤ sizeV v := by
  cases v <;> simp [sizeV]

theorem readV_null (fuel : Nat) (rest : List Char) :
    readV (fuel + 1) ('n' :: 'u' :: 'l' :: 'l' :: rest) = some (.null, rest) := by
  simp [readV, readNull]

theorem readV_true (fuel : Nat) (rest : List Char) :
    readV (fuel + 1) ('t' :: 'r' :: 'u' :: 'e' :: rest) = some (.bool true, rest) := by
  simp [readV, readTrue, show ('t' : Char) ≠ 'n' from by decide]

theorem readV_false (fuel : Nat) (rest : List Char) :
    readV (fuel + 1) ('f' :: 'a' :: 'l' :: 's' :: 'e' :: rest)
      = some (.bool false, rest) := by
  simp [readV, readFalse, show ('f' : Char) ≠ 'n' from by decide,
    show ('f' : Char) ≠ 't' from by decide]

theorem readV_quote (fuel : Nat) (cs' : List Char) :
    readV (fuel + 1) ('"' :: cs')
      = (readStrBody cs').map (fun p => (.str ⟨p.1⟩, p.2)) := by
  simp [readV, show ('"' : Char) ≠ 'n' from by decide,
    show ('"' : Char) ≠ 't' from by decide, show ('"' : Char) ≠ 'f' from by decide]

theorem readV_lbracket (fuel : Nat) (cs' : List Char) :
    readV (fuel + 1) ('[' :: cs')
      = (if cs'.head? = some ']' then some (.arr [], cs'.tail)
         else (readElems fuel cs').map (fun p => (.arr p.1, p.2))) := by
  simp [readV, show ('[' : Char) ≠ 'n' from by decide,
    show ('[' : Char) ≠ 't' from by decide, show ('[' : Char) ≠ 'f' from by decide,
    show ('[' : Char) ≠ '"' from by decide]

theorem readV_lbrace (fuel : Nat) (cs' : List Char) :
    readV (fuel + 1) (openBrace :: cs')
      = (if cs'.head? = some closeBrace then some (.obj [], cs'.tail)
         else (readFields fuel cs').map (fun p => (.obj p.1, p.2))) := by
  simp [readV, show openBrace ≠ 'n' from by decide,
    show openBrace ≠ 't' from by decide, show openBrace ≠ 'f' from by decide,
    show openBrace ≠ '"' from by decide, show openBrace ≠ '[' from by decide]

theorem readV_minus (fuel : Nat) (cs' : List Char) :
    readV (fuel + 1) ('-' :: cs')
      = (if (cs'.head?.map Char.isDigit).getD false then
           some (.num (-(readNatAux 0 cs').1 : Int), (readNatAux 0 cs').2)
         else Option.none) := by
  simp [readV, show ('-' : Char) ≠ 'n' from by decide,
    show ('-' : Char) ≠ 't' from by decide, show ('-' : Char) ≠ 'f' from by decide,
    show ('-' : Char) ≠ '"' from by decide, show ('-' : Char) ≠ '[' from by decide,
    show ('-' : Char) ≠ openBrace from by decide]

theorem readV_digit (fuel : Nat) (c : Char) (hd : c.isDigit = true)
    (cs' : List Char) :
    readV (fuel + 1) (c :: cs')
      = some (.num ((readNatAux 0 (c :: cs')).1 : Int), (readNatAux 0 (c :: cs')).2) := by
  obtain ⟨h1, h2, h3, h4, h5, h6, h7, -, -⟩ := isDigit_ne_delims c hd
  simp [readV, h1, h2, h3, h4, h5, h6, h7, hd]

theorem readNat_natChars (m : Nat) (rest : List Char)
    (hrest : headNotDigit rest = true) :
    readNatAux 0 (natChars m ++ rest) = (m, rest) := by
  rw [readNatAux_spec (natChars m) (natChars_digits m) rest 0 hrest,
    natChars_foldl]

theorem dumpsArr_cons (x : Json) (xs : List Json) :
    ∃ u, dumpsArr (x :: xs) = dumpsV x ++ u := by
  cases xs with
  | nil => exact ⟨[], by simp [dumpsArr]⟩
  | cons y r => exact ⟨',' :: ' ' :: dumpsArr (y :: r), rfl⟩

theorem headNotDigit_cons (c : Char) (t : List Char) :
    headNotDigit (c :: t) = !c.isDigit := rfl

theorem headNotDigit_of (c : Char) (h : c.isDigit = false) (t : List Char) :
    headNotDigit (c :: t) = true := by
  rw [headNotDigit_cons, h]
  rfl

theorem dumpsObj_cons (k : String) (v : Json) (fs : List (String × Json)) :
    ∃ u, dumpsObj ((k, v) :: fs) = '"' :: u := by
  cases fs with
  | nil =>
    exact ⟨escapeChars k.data ++ '"' :: ':' :: ' ' :: dumpsV v,
      by simp [dumpsObj, dumpsStr]⟩
  | cons f r =>
    exact ⟨escapeChars k.data ++ '"' :: ':' :: ' ' ::
        (dumpsV v ++ ',' :: ' ' :: dumpsObj (f :: r)),
      by simp [dumpsObj, dumpsStr]⟩

mutual

theorem readV_dumps : ∀ (fuel : Nat) (v : Json) (rest : List Char),
    sizeV v ≤ fuel → headNotDigit rest = true →
    readV fuel (dumpsV v ++ rest) = some (v, rest)
  | 0, v, rest => by
    intro h1 _
    have := sizeV_pos v
    omega
  | fuel + 1, v, rest => by
    intro h1 h2
    cases v with
    | null => exact readV_null fuel rest
    | bool b =>
      cases b with
      | true => exact readV_true fuel rest
      | false => exact readV_false fuel rest
    | str s =>
      obtain ⟨sd⟩ := s
      show readV (fuel + 1) (dumpsStr ⟨sd⟩ ++ rest) = _
      have hshape : dumpsStr ⟨sd⟩ ++ rest = '"' :: (escapeChars sd ++ '"' :: rest) := by
        simp [dumpsStr]
      rw [hshape, readV_quote, readStr_escape]
      rfl
    | num n =>
      show readV (fuel + 1) (intChars n ++ rest) = _
      by_cases hn : n < 0
      · rw [intChars, if_pos hn]
        obtain ⟨d, t, hdt⟩ := List.exists_cons_of_ne_nil (natChars_ne_nil n.natAbs)
        have hdig : d.isDigit = true :=
          natChars_digits n.natAbs d (by rw [hdt]; exact List.mem_cons_self d t)
        rw [List.cons_append, readV_minus]
        rw [hdt, List.cons_append]
        have hcond : (((d :: (t ++ rest)).head?.map Char.isDigit).getD false) = true := by
          simp [hdig]
        rw [if_pos hcond, ← List.cons_append, ← hdt, readNat_natChars _ _ h2]
        have hval : (-(n.natAbs : Int)) = n := by omega
        rw [hval]
      · rw [intChars, if_neg hn]
        obtain ⟨d, t, hdt⟩ := List.exists_cons_of_ne_nil (natChars_ne_nil n.toNat)
        have hdig : d.isDigit = true :=
          natChars_digits n.toNat d (by rw [hdt]; exact List.mem_cons_self d t)
        rw [hdt, List.cons_append, readV_digit fuel d hdig,
          ← List.cons_append, ← hdt, readNat_natChars _ _ h2]
        have hval : ((n.toNat : Nat) : Int) = n := by omega
        rw [hval]
    | arr xs =>
      cases xs with
      | nil =>
        have hshape : dumpsV (.arr []) ++ rest = '[' :: ']' :: rest := rfl
        rw [hshape, readV_lbracket]
        simp
      | cons x xs' =>
        obtain ⟨u, hu⟩ := dumpsArr_cons x xs'
        obtain ⟨c0, t0, hc0, hne1, hne2⟩ := dumpsV_head x
        have hsize : sizeElems (x :: xs') ≤ fuel := by
          rw [show sizeV (.arr (x :: xs')) = 1 + sizeElems (x :: xs') from rfl] at h1
          omega
        have hshape : dumpsV (.arr (x :: xs')) ++ rest
            = '[' :: (dumpsArr (x :: xs') ++ ']' :: rest) := by
          show ('[' :: dumpsArr (x :: xs') ++ [']']) ++ rest = _
          simp
        rw [hshape, readV_lbracket]
        have hhead : (dumpsArr (x :: xs') ++ ']' :: rest).head? = some c0 := by
          rw [hu, hc0]; simp
        rw [hhead, if_neg (by simpa using hne1),
          readElems_dumps fuel (x :: xs') rest (by simp) hsize]
        rfl
    | obj fs =>
      cases fs with
      | nil =>
        have hshape : dumpsV (.obj []) ++ rest = openBrace :: closeBrace :: rest := rfl
        rw [hshape, readV_lbrace]
        simp
      | cons f fs' =>
        obtain ⟨k, v0⟩ := f
        obtain ⟨u, hu⟩ := dumpsObj_cons k v0 fs'
        have hsize : sizeFields ((k, v0) :: fs') ≤ fuel := by
          rw [show sizeV (.obj ((k, v0) :: fs'))
              = 1 + sizeFields ((k, v0) :: fs') from rfl] at h1
          omega
        have hshape : dumpsV (.obj ((k, v0) :: fs')) ++ rest
            = openBrace :: (dumpsObj ((k, v0) :: fs') ++ closeBrace :: rest) := by
          show (openBrace :: dumpsObj ((k, v0) :: fs') ++ [closeBrace]) ++ rest = _
          simp
        rw [hshape, readV_lbrace]
        have hhead : (dumpsObj ((k, v0) :: fs') ++ closeBrace :: rest).head?
            = some '"' := by
          rw [hu]; simp
        rw [hhead, if_neg (by decide),
          readFields_dumps fuel ((k, v0) :: fs') rest (by simp) hsize]
        rfl
  termination_by structural fuel => fuel

theorem readElems_dumps : ∀ (fuel : Nat) (xs : List Json) (rest : List Char),
    xs ≠ [] → sizeElems xs ≤ fuel →
    readElems fuel (dumpsArr xs ++ ']' :: rest) = some (xs, rest)
  | 0, xs, rest => by
    intro hne h1
    cases xs with
    | nil => exact absurd rfl hne
    | cons x xs' =>
      have := sizeV_pos x
      rw [show sizeElems (x :: xs') = 1 + sizeV x + sizeElems xs' from rfl] at h1
      omega
  | fuel + 1, xs, rest => by
    intro hne h1
    cases xs with
    | nil => exact absurd rfl hne
    | cons x xs' =>
      have hsx : sizeV x ≤ fuel := by
        have := sizeV_pos x
        rw [show sizeElems (x :: xs') = 1 + sizeV x + sizeElems xs' from rfl] at h1
        omega
      cases xs' with
      | nil =>
        show readElems (fuel + 1) (dumpsV x ++ ']' :: rest) = _
        simp only [readElems]
        rw [readV_dumps fuel x (']' :: rest) hsx (headNotDigit_of ']' (by decide) rest)]
        rfl
      | cons y r =>
        have hsr : sizeElems (y :: r) ≤ fuel := by
          rw [show sizeElems (x :: y :: r) = 1 + sizeV x + sizeElems (y :: r) from rfl]
            at h1
          have := sizeV_pos x
          omega
        show readElems (fuel + 1)
            ((dumpsV x ++ ',' :: ' ' :: dumpsArr (y :: r)) ++ ']' :: rest) = _
        have hshape : (dumpsV x ++ ',' :: ' ' :: dumpsArr (y :: r)) ++ ']' :: rest
            = dumpsV x ++ ',' :: ' ' :: (dumpsArr (y :: r) ++ ']' :: rest) := by
          simp
        rw [hshape]
        simp only [readElems]
        rw [readV_dumps fuel x _ hsx (headNotDigit_of ',' (by decide) _)]
        show Option.map (fun p => (x :: p.1, p.2))
            (readElems fuel (dumpsArr (y :: r) ++ ']' :: rest)) = _
        rw [readElems_dumps fuel (y :: r) rest (by simp) hsr]
        rfl
  termination_by structural fuel => fuel

theorem readFields_dumps : ∀ (fuel : Nat) (fs : List (String × Json)) (rest : List Char),
    fs ≠ [] → sizeFields fs ≤ fuel →
    readFields fuel (dumpsObj fs ++ closeBrace :: rest) = some (fs, rest)
  | 0, fs, rest => by
    intro hne h1
    cases fs with
    | nil => exact absurd rfl hne
    | cons f fs' =>
      obtain ⟨k, v0⟩ := f
      have := sizeV_pos v0
      rw [show sizeFields ((k, v0) :: fs') = 1 + sizeV v0 + sizeFields fs' from rfl]
        at h1
      omega
  | fuel + 1, fs, rest => by
    intro hne h1
    cases fs with
    | nil => exact absurd rfl hne
    | cons f fs' =>
      obtain ⟨k, v0⟩ := f
      obtain ⟨kd⟩ := k
      have hsv : sizeV v0 ≤ fuel := by
        have := sizeV_pos v0
        rw [show sizeFields ((⟨kd⟩, v0) :: fs') = 1 + sizeV v0 + sizeFields fs' from rfl]
          at h1
        omega
      cases fs' with
      | nil =>
        show readFields (fuel + 1)
            ((dumpsStr ⟨kd⟩ ++ ':' :: ' ' :: dumpsV v0) ++ closeBrace :: rest) = _
        have hshape : (dumpsStr ⟨kd⟩ ++ ':' :: ' ' :: dumpsV v0) ++ closeBrace :: rest
            = '"' :: (escapeChars kd ++ '"' ::
                (':' :: ' ' :: (dumpsV v0 ++ closeBrace :: rest))) := by
          simp [dumpsStr]
        rw [hshape]
        simp only [readFields]
        rw [readStr_escape kd]
        simp only [readV_dumps fuel v0 (closeBrace :: rest) hsv
            (headNotDigit_of closeBrace (by decide) rest)]
        rfl
      | cons f2 r2 =>
        have hsr : sizeFields (f2 :: r2) ≤ fuel := by
          rw [show sizeFields ((⟨kd⟩, v0) :: f2 :: r2)
              = 1 + sizeV v0 + sizeFields (f2 :: r2) from rfl] at h1
          have := sizeV_pos v0
          omega
        show readFields (fuel + 1)
            ((dumpsStr ⟨kd⟩ ++ ':' :: ' ' :: dumpsV v0 ++
                ',' :: ' ' :: dumpsObj (f2 :: r2)) ++ closeBrace :: rest) = _
        have hshape : (dumpsStr ⟨kd⟩ ++ ':' :: ' ' :: dumpsV v0 ++
              ',' :: ' ' :: dumpsObj (f2 :: r2)) ++ closeBrace :: rest
            = '"' :: (escapeChars kd ++ '"' ::
                (':' :: ' ' :: (dumpsV v0 ++
                  ',' :: ' ' :: (dumpsObj (f2 :: r2) ++ closeBrace :: rest)))) := by
          simp [dumpsStr]
        rw [hshape]
        simp only [readFields]
        rw [readStr_escape kd]
        simp only [readV_dumps fuel v0
            (',' :: ' ' :: (dumpsObj (f2 :: r2) ++ closeBrace :: rest)) hsv
            (headNotDigit_of ',' (by decide) _)]
        simp only [readFields_dumps fuel (f2 :: r2) rest (by simp) hsr]
        simp
  termination_by structural fuel => fuel

end

/-- `json.loads` inverts `json.dumps` on every JSON value. -/
theorem loads_dumps (v : Json) : loads (dumps v) = some v := by
  have h : readV ((dumpsV v).length + 1) (dumpsV v ++ []) = some (v, []) :=
    readV_dumps _ v [] (le_trans (sizeV_le v) (by omega)) rfl
  rw [List.append_nil] at h
  show (match readV ((dumpsV v).length + 1) (dumpsV v) with
    | some (w, []) => some w
    | _ => Option.none) = some v
  rw [h]

/-- A serialized value is never the empty string. -/
theorem dumps_ne_empty (v : Json) : dumps v ≠ "" := by
  intro h
  exact dumpsV_ne_nil v (congrArg String.data h)

/-! ## Claim C8 -/

theorem upsert_lookup (l : List Entry) (k : String) (v : String) (ttl : Nat) :
    lookupLive (upsert l k v ttl) k = some (v, ttl) := by
  induction l with
  | nil => simp [upsert, lookupLive]
  | cons e rest ih =>
    by_cases he : e.1 == k
    · simp [upsert, he, lookupLive]
    · simp only [upsert, he, Bool.false_eq_true, if_false, ite_false]
      simp only [lookupLive, List.find?_cons, he] at ih ⊢
      exact ih

theorem CacheManager.get_found (E : List Entry) (b : Nat) (k s : String)
    (t : Nat) (j : Json) (hlook : lookupLive E k = some (s, t)) (hs : s ≠ "")
    (hloads : loads s = some j) :
    CacheManager.get k ⟨E, b, Option.none⟩
      = (⟨E, b, Option.none⟩, Except.ok (some j)) := by
  simp [CacheManager.get, attempt, redisGet, tick, getState, bind, monadM,
    hlook, hs, hloads, mThrow, pure]

/-- Claim C8: set/get round-trip.  With the backend available, immediately
after `CacheManager.set(key, value, ttl)` (`ttl > 0`; no time passes in
between, so the TTL has not elapsed) a `CacheManager.get(key)` returns a
value that deserializes back to a value equal to the original: `get`
returns `some value` itself, via `json.loads` of the stored bytes. -/
theorem C8_set_get_roundtrip (E : List Entry) (b : Nat) (key : String)
    (v : Json) (ttl : Nat) (httl : 0 < ttl) :
    CacheManager.set key v ttl ⟨E, b, Option.none⟩
      = (⟨upsert E key (dumps v) ttl, b, Option.none⟩, Except.ok true) ∧
    CacheManager.get key ⟨upsert E key (dumps v) ttl, b, Option.none⟩
      = (⟨upsert E key (dumps v) ttl, b, Option.none⟩, Except.ok (some v)) := by
  constructor
  · rfl
  · exact CacheManager.get_found _ b key (dumps v) ttl v
      (upsert_lookup E key (dumps v) ttl) (dumps_ne_empty v) (loads_dumps v)

/-- Witness for `C8_set_get_roundtrip` on a concrete store and value. -/
theorem C8_witness :
    0 < 10 ∧
    (CacheManager.get "price:bitcoin"
        (CacheManager.set "price:bitcoin" (.obj [("price", .str "42000.5")]) 10
          ⟨[("sentiment:bitcoin", some ("\"up\"", 300))], 1, Option.none⟩).1).2
      = Except.ok (some (.obj [("price", .str "42000.5")])) := by
  have h := C8_set_get_roundtrip [("sentiment:bitcoin", some ("\"up\"", 300))] 1
    "price:bitcoin" (.obj [("price", .str "42000.5")]) 10 (by decide)
  exact ⟨by decide, by rw [h.1, h.2]⟩

/-! ## Claims C4 and C5 -/

/-- What the wrapper's first `try` block can return as a hit: the value the
backend holds under the key, provided the read succeeds, the bytes are
truthy, and they deserialize. -/
def hitValue (r : Redis) (key : String) : Option Json :=
  match redisGet key r with
  | (_, Except.ok (some s)) => if s ≠ "" then loads s else Option.none
  | _ => Option.none

theorem wrapperTryGet_spec (key : String) (r : Redis) :
    wrapperTryGet key r = ((redisGet key r).1, Except.ok (hitValue r key)) := by
  rcases hg : redisGet key r with ⟨r1, res⟩
  cases res with
  | error e => simp [wrapperTryGet, attempt, bind, monadM, hitValue, hg]
  | ok v? =>
    cases v? with
    | none => simp [wrapperTryGet, attempt, bind, monadM, hitValue, hg, pure]
    | some s =>
      by_cases hs : s = ""
      · simp [wrapperTryGet, attempt, bind, monadM, hitValue, hg, hs, pure]
      · cases hl : loads s with
        | none =>
          simp [wrapperTryGet, attempt, bind, monadM, hitValue, hg, hs, hl,
            mThrow, pure]
        | some j =>
          simp [wrapperTryGet, attempt, bind, monadM, hitValue, hg, hs, hl, pure]

/-- Claim C5: cache failures never fail the wrapped call.  Whenever the
first `try` block produces no hit — the cache read raises, the cached bytes
are missing or falsy, or they fail to deserialize — the wrapper still calls
the wrapped function exactly once, returns its fresh result, and raises no
cache-layer exception (the result is `Except.ok` for every backend state,
including one whose write-through then raises too). -/
theorem C5_cache_failures_never_fail (r : Redis) (ttl : Nat) (kp fn : String)
    (f : List Arg → List (String × KwArg) → Json)
    (args : List Arg) (kwargs : List (String × KwArg))
    (hclient : List.lookup "_redis" kwargs = some KwArg.client)
    (hmiss : hitValue r (cache_key args (if kp ≠ "" then kp else fn) ":")
      = Option.none) :
    ∃ r', async_wrapper ttl kp fn f args kwargs r
      = (r', Except.ok (f args (kwargs.eraseP (fun kv => kv.1 == "_redis")), 1)) := by
  have hpre : (if kp ≠ "" then kp else fn) = (if kp = "" then fn else kp) := by
    by_cases h : kp = "" <;> simp [h]
  have hw := wrapperTryGet_spec (cache_key args (if kp = "" then fn else kp) ":") r
  rw [hpre] at hmiss
  simp only [async_wrapper, popRedis, hclient, bind, monadM]
  rw [hpre, hw, hmiss]
  rcases hs : redisSetex (cache_key args (if kp = "" then fn else kp) ":") ttl
      (dumps (f args (kwargs.eraseP (fun kv => kv.1 == "_redis"))))
      (redisGet (cache_key args (if kp = "" then fn else kp) ":") r).1
    with ⟨r2, res2⟩
  cases res2 with
  | ok u => exact ⟨r2, by simp [attempt, bind, monadM, hs, pure]⟩
  | error e => exact ⟨r2, by simp [attempt, bind, monadM, hs, pure]⟩

/-- Witness for `C5_cache_failures_never_fail`: the cached bytes under the
key are corrupt (`json.loads` fails), yet the wrapper returns the stub's
fresh result with one invocation and no exception. -/
theorem C5_witness :
    hitValue ⟨[("user:42", some ("not json", 300))], 1, Option.none⟩ "user:42"
      = Option.none ∧
    ∃ r', async_wrapper 300 "user" "get_user" (fun _ _ => Json.num 7) [.s "42"]
        [("_redis", KwArg.client)]
        ⟨[("user:42", some ("not json", 300))], 1, Option.none⟩
      = (r', Except.ok (Json.num 7, 1)) :=
  ⟨rfl,
   C5_cache_failures_never_fail ⟨[("user:42", some ("not json", 300))], 1,
     Option.none⟩ 300 "user" "get_user" (fun _ _ => Json.num 7) [.s "42"]
     [("_redis", KwArg.client)] rfl rfl⟩

/-- Claim C4: read-through miss-then-hit.  With a working backend and the
derived key absent, the first wrapped call invokes the computation exactly
once (call counter 1) and stores its serialized result under the key; an
immediately following call with the same arguments returns the cached value
(equal to the first result, via the `loads`/`dumps` round-trip), leaves the
state unchanged, and does not invoke the computation (call counter 0). -/
theorem C4_read_through_miss_then_hit
    (E : List Entry) (b ttl : Nat) (kp fn : String)
    (f : List Arg → List (String × KwArg) → Json)
    (args : List Arg) (kwargs : List (String × KwArg))
    (hclient : List.lookup "_redis" kwargs = some KwArg.client)
    (hmiss : lookupLive E (cache_key args (if kp = "" then fn else kp) ":")
      = Option.none) :
    async_wrapper ttl kp fn f args kwargs ⟨E, b, Option.none⟩
      = (⟨upsert E (cache_key args (if kp = "" then fn else kp) ":")
            (dumps (f args (kwargs.eraseP (fun kv => kv.1 == "_redis")))) ttl,
          b, Option.none⟩,
         Except.ok (f args (kwargs.eraseP (fun kv => kv.1 == "_redis")), 1)) ∧
    async_wrapper ttl kp fn f args kwargs
        ⟨upsert E (cache_key args (if kp = "" then fn else kp) ":")
            (dumps (f args (kwargs.eraseP (fun kv => kv.1 == "_redis")))) ttl,
          b, Option.none⟩
      = (⟨upsert E (cache_key args (if kp = "" then fn else kp) ":")
            (dumps (f args (kwargs.eraseP (fun kv => kv.1 == "_redis")))) ttl,
          b, Option.none⟩,
         Except.ok (f args (kwargs.eraseP (fun kv => kv.1 == "_redis")), 0)) := by
  have hpre : (if kp ≠ "" then kp else fn) = (if kp = "" then fn else kp) := by
    by_cases h : kp = "" <;> simp [h]
  constructor
  · have h1 : hitValue ⟨E, b, Option.none⟩
        (cache_key args (if kp = "" then fn else kp) ":") = Option.none := by
      simp [hitValue, redisGet, tick, getState, bind, monadM, pure, hmiss]
    have hw := wrapperTryGet_spec
      (cache_key args (if kp = "" then fn else kp) ":") ⟨E, b, Option.none⟩
    simp only [async_wrapper, popRedis, hclient, bind, monadM]
    rw [hpre, hw, h1]
    rfl
  · have hlook := upsert_lookup E (cache_key args (if kp = "" then fn else kp) ":")
      (dumps (f args (kwargs.eraseP (fun kv => kv.1 == "_redis")))) ttl
    have h2 : hitValue
        ⟨upsert E (cache_key args (if kp = "" then fn else kp) ":")
            (dumps (f args (kwargs.eraseP (fun kv => kv.1 == "_redis")))) ttl,
          b, Option.none⟩
        (cache_key args (if kp = "" then fn else kp) ":")
        = some (f args (kwargs.eraseP (fun kv => kv.1 == "_redis"))) := by
      simp [hitValue, redisGet, tick, getState, bind, monadM, pure, hlook,
        dumps_ne_empty (f args (kwargs.eraseP (fun kv => kv.1 == "_redis"))),
        loads_dumps (f args (kwargs.eraseP (fun kv => kv.1 == "_redis")))]
    have hw := wrapperTryGet_spec
      (cache_key args (if kp = "" then fn else kp) ":")
      ⟨upsert E (cache_key args (if kp = "" then fn else kp) ":")
          (dumps (f args (kwargs.eraseP (fun kv => kv.1 == "_redis")))) ttl,
        b, Option.none⟩
    simp only [async_wrapper, popRedis, hclient, bind, monadM]
    rw [hpre, hw, h2]
    rfl

/-- Witness for `C4_read_through_miss_then_hit` on a fresh key and a stub
computation. -/
theorem C4_witness :
    List.lookup "_redis" ([("_redis", KwArg.client)] : List (String × KwArg))
      = some KwArg.client ∧
    lookupLive []
      (cache_key [.s "ethereum", .i 20]
        (if "analytics" = "" then "get_ma" else "analytics") ":") = Option.none ∧
    (async_wrapper 60 "analytics" "get_ma"
        (fun _ _ => Json.obj [("value", .str "42.1")]) [.s "ethereum", .i 20]
        [("_redis", KwArg.client)] ⟨[], 1, Option.none⟩).2
      = Except.ok (Json.obj [("value", .str "42.1")], 1) := by
  have h := C4_read_through_miss_then_hit [] 1 60 "analytics" "get_ma"
    (fun _ _ => Json.obj [("value", .str "42.1")]) [.s "ethereum", .i 20]
    [("_redis", KwArg.client)] rfl rfl
  exact ⟨rfl, rfl, by rw [h.1]⟩

/-! ## Claims C2 and C7: the scan/delete loop -/

theorem purgeE_fst (pat : String) (e : Entry) : (purgeE pat e).1 = e.1 := by
  by_cases h : globMatch pat e.1 <;> simp [purgeE, h]

theorem purge_map_fst (pat : String) (l : List Entry) :
    (purge pat l).map Prod.fst = l.map Prod.fst := by
  simp only [purge, List.map_map]
  exact List.map_congr_left (fun e _ => purgeE_fst pat e)

theorem purge_append (pat : String) (A B : List Entry) :
    purge pat (A ++ B) = purge pat A ++ purge pat B := by
  simp [purge]

theorem purge_length (pat : String) (l : List Entry) :
    (purge pat l).length = l.length := by
  simp [purge]

theorem countLiveMatch_append (pat : String) (A B : List Entry) :
    countLiveMatch pat (A ++ B) = countLiveMatch pat A + countLiveMatch pat B := by
  simp [countLiveMatch, List.filter_append]

theorem scanKeys_nil_iff (pat : String) (l : List Entry) :
    scanKeys pat l = [] ↔ l.filter (matchesE pat) = [] := by
  simp [scanKeys]

theorem purge_of_no_live (pat : String) (l : List Entry)
    (h : l.filter (matchesE pat) = []) : purge pat l = l := by
  induction l with
  | nil => rfl
  | cons e t ih =>
    rw [List.filter_cons] at h
    by_cases hm : matchesE pat e
    · simp [hm] at h
    · simp only [hm, Bool.false_eq_true, if_false, ite_false] at h
      simp only [matchesE, Bool.and_eq_true, not_and] at hm
      have : purgeE pat e = e := by
        by_cases hg : globMatch pat e.1
        · have hdead : e.2.isSome = false := by
            by_cases hl : e.2.isSome
            · exact absurd hg (by simpa using hm hl)
            · simpa using hl
          have he2 : e.2 = Option.none := Option.not_isSome_iff_eq_none.mp (by simp [hdead])
          obtain ⟨k, v⟩ := e
          simp only at he2
          subst he2
          simp [purgeE, hg]
        · simp [purgeE, hg]
      simp [purge, this]
      exact ih h

theorem countLiveMatch_zero_of_no_live (pat : String) (l : List Entry)
    (h : l.filter (matchesE pat) = []) : countLiveMatch pat l = 0 := by
  simp [countLiveMatch, h]

theorem containsStr_iff {L : List String} {x : String} :
    L.contains x = true ↔ x ∈ L := by
  simp [List.contains_iff_exists_mem_beq, beq_iff_eq]

theorem scanKeys_mem_iff (pat : String) (S : List Entry) (x : String) :
    x ∈ scanKeys pat S ↔ ∃ e ∈ S, matchesE pat e = true ∧ e.1 = x := by
  simp only [scanKeys, List.mem_map, List.mem_filter]
  constructor
  · rintro ⟨e, ⟨he, hm⟩, rfl⟩; exact ⟨e, he, hm, rfl⟩
  · rintro ⟨e, he, hm, rfl⟩; exact ⟨e, ⟨he, hm⟩, rfl⟩

theorem contains_false_of_not_mem {L : List String} {x : String} (h : x ∉ L) :
    L.contains x = false := by
  cases hc : L.contains x
  · rfl
  · exact absurd (containsStr_iff.mp hc) h

/-- `DEL` of the keys a scan reported over the middle segment `S` affects
exactly the matching live entries of `S` (keys are unique). -/
theorem delEntries_split (pat : String) (A S B : List Entry)
    (hnd : ((A ++ S ++ B).map Prod.fst).Nodup) :
    delEntries (scanKeys pat S) (A ++ S ++ B) = A ++ purge pat S ++ B := by
  have hnd' : ((A.map Prod.fst ++ S.map Prod.fst) ++ B.map Prod.fst).Nodup := by
    simpa [List.map_append] using hnd
  obtain ⟨hASn, hBn, hABdisj⟩ := List.nodup_append.mp hnd'
  obtain ⟨hAn, hSn, hASdisj⟩ := List.nodup_append.mp hASn
  have hinj := List.inj_on_of_nodup_map hSn
  have hnotA : ∀ e ∈ A, e.1 ∉ scanKeys pat S := by
    intro e he hc
    obtain ⟨e', he', _, hfst⟩ := (scanKeys_mem_iff pat S e.1).mp hc
    exact hASdisj (List.mem_map_of_mem Prod.fst he)
      (hfst ▸ List.mem_map_of_mem Prod.fst he')
  have hnotB : ∀ e ∈ B, e.1 ∉ scanKeys pat S := by
    intro e he hc
    obtain ⟨e', he', _, hfst⟩ := (scanKeys_mem_iff pat S e.1).mp hc
    exact hABdisj
      (List.mem_append_right _ (hfst ▸ List.mem_map_of_mem Prod.fst he'))
      (List.mem_map_of_mem Prod.fst he)
  have hSstep : ∀ e ∈ S,
      (if (scanKeys pat S).contains e.1 then (e.1, (Option.none : Option (String × Nat))) else e)
        = purgeE pat e := by
    intro e he
    by_cases hc : e.1 ∈ scanKeys pat S
    · obtain ⟨e', he', hm', hfst⟩ := (scanKeys_mem_iff pat S e.1).mp hc
      have heq : e' = e := hinj he' he hfst
      subst heq
      have hglob : globMatch pat e'.1 = true := by
        simp only [matchesE, Bool.and_eq_true] at hm'
        exact hm'.2
      rw [containsStr_iff.mpr hc, purgeE, if_pos hglob]
      simp
    · rw [contains_false_of_not_mem hc]
      by_cases hg : globMatch pat e.1 = true
      · have hdead : e.2.isSome = false := by
          cases hl : e.2.isSome
          · rfl
          · exact absurd ((scanKeys_mem_iff pat S e.1).mpr
              ⟨e, he, by simp [matchesE, hl, hg], rfl⟩) hc
        have he2 : e.2 = Option.none :=
          Option.not_isSome_iff_eq_none.mp (by simp [hdead])
        obtain ⟨k, v⟩ := e
        simp only at he2
        subst he2
        simp [purgeE, hg]
      · simp [purgeE, hg]
  show (A ++ S ++ B).map
      (fun e => if (scanKeys pat S).contains e.1 then (e.1, Option.none) else e)
    = A ++ purge pat S ++ B
  rw [List.map_append, List.map_append]
  congr 1
  congr 1
  · refine (List.map_congr_left (fun e he => ?_)).trans (List.map_id A)
    rw [contains_false_of_not_mem (hnotA e he)]
    simp
  · exact List.map_congr_left hSstep
  · refine (List.map_congr_left (fun e he => ?_)).trans (List.map_id B)
    rw [contains_false_of_not_mem (hnotB e he)]
    simp

/-- `DEL` of the keys a scan reported over `S` counts exactly the matching
live entries of `S` (keys are unique). -/
theorem delCount_split (pat : String) (A S B : List Entry)
    (hnd : ((A ++ S ++ B).map Prod.fst).Nodup) :
    delCount (scanKeys pat S) (A ++ S ++ B) = countLiveMatch pat S := by
  have hnd' : ((A.map Prod.fst ++ S.map Prod.fst) ++ B.map Prod.fst).Nodup := by
    simpa [List.map_append] using hnd
  obtain ⟨hASn, hBn, hABdisj⟩ := List.nodup_append.mp hnd'
  obtain ⟨hAn, hSn, hASdisj⟩ := List.nodup_append.mp hASn
  have hinj := List.inj_on_of_nodup_map hSn
  have hnotA : ∀ e ∈ A, e.1 ∉ scanKeys pat S := by
    intro e he hc
    obtain ⟨e', he', _, hfst⟩ := (scanKeys_mem_iff pat S e.1).mp hc
    exact hASdisj (List.mem_map_of_mem Prod.fst he)
      (hfst ▸ List.mem_map_of_mem Prod.fst he')
  have hnotB : ∀ e ∈ B, e.1 ∉ scanKeys pat S := by
    intro e he hc
    obtain ⟨e', he', _, hfst⟩ := (scanKeys_mem_iff pat S e.1).mp hc
    exact hABdisj
      (List.mem_append_right _ (hfst ▸ List.mem_map_of_mem Prod.fst he'))
      (List.mem_map_of_mem Prod.fst he)
  have hfA : A.filter (fun e => e.2.isSome && (scanKeys pat S).contains e.1) = [] := by
    rw [List.filter_eq_nil_iff]
    intro e he
    rw [contains_false_of_not_mem (hnotA e he)]
    simp
  have hfB : B.filter (fun e => e.2.isSome && (scanKeys pat S).contains e.1) = [] := by
    rw [List.filter_eq_nil_iff]
    intro e he
    rw [contains_false_of_not_mem (hnotB e he)]
    simp
  have hfS : S.filter (fun e => e.2.isSome && (scanKeys pat S).contains e.1)
      = S.filter (matchesE pat) := by
    refine List.filter_congr ?_
    intro e he
    by_cases hm : matchesE pat e = true
    · have hc : e.1 ∈ scanKeys pat S :=
        (scanKeys_mem_iff pat S e.1).mpr ⟨e, he, hm, rfl⟩
      have h1 : e.2.isSome = true := by
        have h2 := hm
        simp only [matchesE, Bool.and_eq_true] at h2
        exact h2.1
      rw [containsStr_iff.mpr hc, hm]
      simp [h1]
    · cases hl : e.2.isSome with
      | false => simp [matchesE, hl]
      | true =>
        have hnc : e.1 ∉ scanKeys pat S := by
          intro hc
          obtain ⟨e', he', hm', hfst⟩ := (scanKeys_mem_iff pat S e.1).mp hc
          have heq : e' = e := hinj he' he hfst
          subst heq
          exact hm hm'
        rw [contains_false_of_not_mem hnc]
        cases hme : matchesE pat e
        · simp
        · exact absurd hme hm
  simp only [delCount, countLiveMatch]
  rw [List.filter_append, List.filter_append, hfA, hfS, hfB]
  simp

/-! Running the monadic code on a healthy (`failAfter = none`) backend. -/

theorem pure_run {α : Type} (a : α) (r : Redis) :
    (pure a : M α) r = (r, Except.ok a) := rfl

theorem bind_run {α β : Type} (x : M α) (f : α → M β) (r r' : Redis) (a : α)
    (h : x r = (r', Except.ok a)) : (x >>= f) r = f a r' := by
  show (match x r with
    | (r2, Except.ok a2) => f a2 r2
    | (r2, Except.error e) => (r2, Except.error e)) = f a r'
  rw [h]

theorem redisScan_run (c : Nat) (pat : String) (E' : List Entry) (b : Nat) :
    redisScan c pat ⟨E', b, Option.none⟩ =
      (⟨E', b, Option.none⟩,
        Except.ok ((if c + b < E'.length then c + b else 0),
          scanKeys pat ((E'.drop c).take b))) := rfl

theorem redisDelete_run (ks : List String) (E' : List Entry) (b : Nat) :
    redisDelete ks ⟨E', b, Option.none⟩ =
      (⟨delEntries ks E', b, Option.none⟩, Except.ok (delCount ks E')) := rfl

theorem delEntries_nil (E' : List Entry) : delEntries [] E' = E' := by
  simp [delEntries]

theorem delCount_nil (E' : List Entry) : delCount [] E' = 0 := by
  simp [delCount]

/-- One `if keys: deleted += delete(*keys)` step of the loop body. -/
theorem delStep_run (ks : List String) (acc : Nat) (E' : List Entry) (b : Nat) :
    (if ks.isEmpty then (pure acc : M Nat)
     else Bind.bind (redisDelete ks) (fun n => pure (acc + n)))
      ⟨E', b, Option.none⟩
    = (⟨delEntries ks E', b, Option.none⟩, Except.ok (acc + delCount ks E')) := by
  cases ks with
  | nil =>
    rw [delEntries_nil, delCount_nil]
    show ((⟨E', b, Option.none⟩ : Redis), Except.ok acc)
      = (⟨E', b, Option.none⟩, Except.ok (acc + 0))
    rw [Nat.add_zero]
  | cons x t =>
    show Bind.bind (redisDelete (x :: t)) (fun n => (pure (acc + n) : M Nat))
        ⟨E', b, Option.none⟩ = _
    rw [bind_run _ _ _ _ _ (redisDelete_run (x :: t) E' b)]
    rfl

/-- Unfolding one iteration of `deleteLoop` once the scan result is known. -/
theorem deleteLoop_run (pat : String) (fuel c acc : Nat) (r0 r1 : Redis)
    (nx : Nat) (ks : List String)
    (hscan : redisScan c pat r0 = (r1, Except.ok (nx, ks))) :
    deleteLoop pat (fuel + 1) c acc r0 =
      Bind.bind
        (if ks.isEmpty then (pure acc : M Nat)
         else Bind.bind (redisDelete ks) (fun n => pure (acc + n)))
        (fun a => if nx = 0 then pure a else deleteLoop pat fuel nx a) r1 := by
  show Bind.bind (redisScan c pat)
      (fun sr =>
        Bind.bind
          (if sr.2.isEmpty then (pure acc : M Nat)
           else Bind.bind (redisDelete sr.2) (fun n => pure (acc + n)))
          (fun a => if sr.1 = 0 then pure a else deleteLoop pat fuel sr.1 a)) r0 = _
  rw [bind_run _ _ _ _ _ hscan]

/-- Invariant correctness of the shared scan/delete loop on a healthy backend
with unique keys: starting at `cursor = c` with the first `c` slots already
purged, enough fuel, and `batch = b ≥ 1`, the loop tombstones every matching
live entry and returns how many it found from `c` on. -/
theorem deleteLoop_ok (pat : String) (E : List Entry) (b : Nat)
    (hb : 1 ≤ b) (hnd : (E.map Prod.fst).Nodup) :
    ∀ (fuel c acc : Nat), c ≤ E.length → E.length - c < fuel * b →
      deleteLoop pat fuel c acc ⟨purge pat (E.take c) ++ E.drop c, b, Option.none⟩
        = (⟨purge pat E, b, Option.none⟩,
            Except.ok (acc + countLiveMatch pat (E.drop c))) := by
  intro fuel
  induction fuel with
  | zero =>
    intro c acc hc hf
    rw [Nat.zero_mul] at hf
    omega
  | succ fuel ih =>
    intro c acc hc hf
    have hA : (purge pat (E.take c)).length = c := by
      rw [purge_length, List.length_take]
      omega
    have hdropc : (purge pat (E.take c) ++ E.drop c).drop c = E.drop c := by
      have h0 := List.drop_left (purge pat (E.take c)) (E.drop c)
      rw [hA] at h0
      exact h0
    have hlen : (purge pat (E.take c) ++ E.drop c).length = E.length := by
      rw [List.length_append, hA, List.length_drop]
      omega
    have hscan := redisScan_run c pat (purge pat (E.take c) ++ E.drop c) b
    rw [hdropc, hlen] at hscan
    have hSB : (E.drop c).take b ++ (E.drop c).drop b = E.drop c :=
      List.take_append_drop b (E.drop c)
    have hASB : purge pat (E.take c) ++ (E.drop c).take b ++ (E.drop c).drop b
        = purge pat (E.take c) ++ E.drop c := by
      rw [List.append_assoc, hSB]
    have hndfull : ((purge pat (E.take c) ++ (E.drop c).take b
        ++ (E.drop c).drop b).map Prod.fst).Nodup := by
      rw [hASB, List.map_append, purge_map_fst, ← List.map_append,
        List.take_append_drop]
      exact hnd
    have hdel := delEntries_split pat (purge pat (E.take c))
      ((E.drop c).take b) ((E.drop c).drop b) hndfull
    rw [hASB] at hdel
    have hcnt := delCount_split pat (purge pat (E.take c))
      ((E.drop c).take b) ((E.drop c).drop b) hndfull
    rw [hASB] at hcnt
    have hcountsplit : countLiveMatch pat (E.drop c)
        = countLiveMatch pat ((E.drop c).take b)
          + countLiveMatch pat ((E.drop c).drop b) := by
      conv_lhs => rw [← hSB]
      exact countLiveMatch_append pat _ _
    have hstep := delStep_run (scanKeys pat ((E.drop c).take b)) acc
      (purge pat (E.take c) ++ E.drop c) b
    rw [hdel, hcnt] at hstep
    by_cases hlt : c + b < E.length
    · rw [if_pos hlt] at hscan
      rw [deleteLoop_run pat fuel c acc _ _ _ _ hscan,
        bind_run _ _ _ _ _ hstep]
      have hnx0 : ¬(c + b = 0) := by omega
      simp only [if_neg hnx0]
      have hAS : purge pat (E.take c) ++ purge pat ((E.drop c).take b)
          = purge pat (E.take (c + b)) := by
        rw [← purge_append, ← List.take_add]
      have hdropcb : (E.drop c).drop b = E.drop (c + b) := by
        rw [List.drop_drop, Nat.add_comm]
      have hih := ih (c + b) (acc + countLiveMatch pat ((E.drop c).take b))
        (Nat.le_of_lt hlt) (by rw [Nat.succ_mul] at hf; omega)
      rw [show purge pat (E.take c) ++ purge pat ((E.drop c).take b)
            ++ (E.drop c).drop b
          = purge pat (E.take (c + b)) ++ E.drop (c + b) from by
        rw [List.append_assoc, ← hdropcb, ← hAS, List.append_assoc]]
      rw [hih, hcountsplit, hdropcb, Nat.add_assoc]
    · rw [if_neg hlt] at hscan
      rw [deleteLoop_run pat fuel c acc _ _ _ _ hscan,
        bind_run _ _ _ _ _ hstep]
      have hSfull : (E.drop c).take b = E.drop c := by
        apply List.take_of_length_le
        rw [List.length_drop]
        omega
      have hBnil : (E.drop c).drop b = [] := by
        apply List.drop_eq_nil_of_le
        rw [List.length_drop]
        omega
      simp only [if_pos rfl, if_true]
      rw [pure_run, hSfull, hBnil, List.append_nil, ← purge_append,
        List.take_append_drop]

/-- `try:` body succeeding passes its result through. -/
theorem attempt_ok {α : Type} (body : M α) (fb : α) (r r' : Redis) (a : α)
    (h : body r = (r', Except.ok a)) : attempt body fb r = (r', Except.ok a) := by
  show (match body r with
    | (r2, Except.ok a2) => (r2, Except.ok a2)
    | (r2, Except.error _) => (r2, Except.ok fb)) = _
  rw [h]

/-- `except:` returns the fallback, keeping the state reached at the raise. -/
theorem attempt_fail {α : Type} (body : M α) (fb : α) (r r' : Redis)
    (h : body r = (r', Except.error ())) : attempt body fb r = (r', Except.ok fb) := by
  show (match body r with
    | (r2, Except.ok a2) => (r2, Except.ok a2)
    | (r2, Except.error _) => (r2, Except.ok fb)) = _
  rw [h]

/-- A whole pattern delete on a healthy backend with unique keys: every
matching live key is tombstoned and their number is returned. -/
theorem deletePatternImpl_ok (pat : String) (E : List Entry) (b : Nat)
    (hb : 1 ≤ b) (hnd : (E.map Prod.fst).Nodup) :
    deletePatternImpl pat ⟨E, b, Option.none⟩
      = (⟨purge pat E, b, Option.none⟩, Except.ok (countLiveMatch pat E)) := by
  have h := deleteLoop_ok pat E b hb hnd (E.length + 1) 0 0 (Nat.zero_le _)
    (by
      have h2 : E.length + 1 ≤ (E.length + 1) * b := Nat.le_mul_of_pos_right _ hb
      omega)
  rw [show purge pat (E.take 0) ++ E.drop 0 = E from rfl, List.drop_zero,
    Nat.zero_add] at h
  show attempt (deleteLoop pat (E.length + 1) 0 0) 0 ⟨E, b, Option.none⟩ = _
  exact attempt_ok _ _ _ _ _ h

/-- Sequential composition of the pattern purges, in pattern order. -/
def purgeAll : List String → List Entry → List Entry
  | [], l => l
  | p :: ps, l => purgeAll ps (purge p l)

/-- The per-pattern live-match counts the sequential deletes add up. -/
def countAll : List String → List Entry → Nat
  | [], _ => 0
  | p :: ps, l => countLiveMatch p l + countAll ps (purge p l)

theorem purgeAll_map_fst (ps : List String) :
    ∀ l : List Entry, (purgeAll ps l).map Prod.fst = l.map Prod.fst := by
  induction ps with
  | nil => intro l; rfl
  | cons p ps ih =>
    intro l
    show (purgeAll ps (purge p l)).map Prod.fst = _
    rw [ih (purge p l), purge_map_fst]

/-- `deleted = 0; for pattern in patterns: deleted += _delete_pattern(...)`
on a healthy backend with unique keys. -/
theorem runPatterns_ok (b : Nat) (hb : 1 ≤ b) :
    ∀ (ps : List String) (E : List Entry), (E.map Prod.fst).Nodup →
      EventBasedInvalidation.runPatterns ps ⟨E, b, Option.none⟩
        = (⟨purgeAll ps E, b, Option.none⟩, Except.ok (countAll ps E)) := by
  intro ps
  induction ps with
  | nil => intro E _; rfl
  | cons p ps ih =>
    intro E hnd
    have hnd' : ((purge p E).map Prod.fst).Nodup := by
      rw [purge_map_fst]; exact hnd
    have hdp : EventBasedInvalidation._delete_pattern p ⟨E, b, Option.none⟩
        = (⟨purge p E, b, Option.none⟩, Except.ok (countLiveMatch p E)) :=
      deletePatternImpl_ok p E b hb hnd
    show (Bind.bind (EventBasedInvalidation._delete_pattern p)
      (fun n => Bind.bind (EventBasedInvalidation.runPatterns ps)
        (fun m => pure (n + m)))) ⟨E, b, Option.none⟩ = _
    rw [bind_run _ _ _ _ _ hdp, bind_run _ _ _ _ _ (ih (purge p E) hnd'),
      pure_run]
    rfl

/-- Purging a pattern keeps exactly the live keys that do not match it. -/
theorem liveKeys_purge (pat : String) (l : List Entry) :
    liveKeys (purge pat l) = (liveKeys l).filter (fun k => !globMatch pat k) := by
  induction l with
  | nil => rfl
  | cons e t ih =>
    obtain ⟨k, v⟩ := e
    cases v with
    | none =>
      by_cases hg : globMatch pat k <;>
        simp only [purge, List.map_cons, purgeE, hg, if_true, if_false,
          liveKeys, List.filterMap_cons, Option.isSome_none, Bool.false_eq_true,
          ite_false, if_pos, if_neg, Bool.not_eq_true] <;>
        exact ih
    | some vt =>
      by_cases hg : globMatch pat k
      · simp only [purge, List.map_cons, purgeE, hg, if_pos, liveKeys,
          List.filterMap_cons, Option.isSome_none, Option.isSome_some,
          Bool.false_eq_true, ite_false, ite_true, List.filter_cons, hg,
          Bool.not_true]
        exact ih
      · simp only [purge, List.map_cons, purgeE, hg, Bool.false_eq_true,
          if_false, liveKeys, List.filterMap_cons, Option.isSome_some,
          ite_true, List.filter_cons, hg, Bool.not_false, if_true]
        rw [show liveKeys (purge pat t) = List.filterMap
          (fun e => if e.2.isSome = true then some e.1 else Option.none)
          (List.map (purgeE pat) t) from rfl] at ih
        rw [ih]
        rfl

/-- The number of live matching entries, seen through `liveKeys`. -/
theorem countLiveMatch_eq_countP (pat : String) (l : List Entry) :
    countLiveMatch pat l = (liveKeys l).countP (fun k => globMatch pat k) := by
  induction l with
  | nil => rfl
  | cons e t ih =>
    obtain ⟨k, v⟩ := e
    cases v with
    | none =>
      simp only [countLiveMatch, matchesE, List.filter_cons, Option.isSome_none,
        Bool.false_and, Bool.false_eq_true, if_false, liveKeys,
        List.filterMap_cons, ite_false] at ih ⊢
      exact ih
    | some vt =>
      have hrw : (List.filter (matchesE pat) t).length = countLiveMatch pat t := rfl
      have hlk : List.filterMap
          (fun e => if e.2.isSome = true then some e.1 else Option.none) t
        = liveKeys t := rfl
      by_cases hg : globMatch pat k
      · simp only [countLiveMatch, matchesE, List.filter_cons, Option.isSome_some,
          Bool.true_and, hg, if_true, liveKeys, List.filterMap_cons, ite_true,
          List.length_cons, List.countP_cons]
        rw [hrw, hlk, ih]
      · simp only [countLiveMatch, matchesE, List.filter_cons, Option.isSome_some,
          Bool.true_and, hg, Bool.false_eq_true, if_false, liveKeys,
          List.filterMap_cons, ite_true, List.countP_cons]
        rw [hrw, hlk, ih]
        simp [hg]

theorem countP_filter_not (L : List String) (q r : String → Bool) :
    L.countP q + (L.filter (fun k => !q k)).countP r
      = L.countP (fun k => q k || r k) := by
  induction L with
  | nil => rfl
  | cons x t ih =>
    by_cases hq : q x
    · simp only [List.countP_cons, List.filter_cons, hq, Bool.not_true,
        Bool.false_eq_true, if_false, if_true, Bool.true_or]
      omega
    · by_cases hr : r x <;>
        simp only [List.countP_cons, List.filter_cons, hq, hr, Bool.not_false,
          Bool.false_eq_true, Bool.false_or, if_false, if_true] <;>
      omega

theorem liveKeys_purgeAll (ps : List String) :
    ∀ l : List Entry, liveKeys (purgeAll ps l)
      = (liveKeys l).filter (fun k => !(ps.any (fun p => globMatch p k))) := by
  induction ps with
  | nil => intro l; simp [purgeAll]
  | cons p ps ih =>
    intro l
    show liveKeys (purgeAll ps (purge p l)) = _
    rw [ih (purge p l), liveKeys_purge, List.filter_filter]
    refine List.filter_congr ?_
    intro k _
    rw [List.any_cons, Bool.not_or, Bool.and_comm]

theorem countAll_eq_countP (ps : List String) :
    ∀ l : List Entry, countAll ps l
      = (liveKeys l).countP (fun k => ps.any (fun p => globMatch p k)) := by
  induction ps with
  | nil => intro l; simp [countAll]
  | cons p ps ih =>
    intro l
    show countLiveMatch p l + countAll ps (purge p l) = _
    rw [ih (purge p l), liveKeys_purge, countLiveMatch_eq_countP,
      countP_filter_not]
    refine List.countP_congr ?_
    intro k _
    simp [List.any_cons]

/-- The four deletion patterns of `invalidate_user_update(user_id)`. -/
def userPatterns (u : String) : List String :=
  ["user:" ++ u, "portfolio:" ++ u ++ ":*",
   "portfolio_perf:" ++ u ++ ":*", "session:*user_id=" ++ u ++ "*"]

/-- Claim C7: on a healthy backend with unique keys, `invalidate_user_update`
deletes exactly the live keys matching one of its four patterns
(`user:{u}`, `portfolio:{u}:*`, `portfolio_perf:{u}:*`,
`session:*user_id={u}*`) and returns their total number: the surviving live
keys are exactly those matching none of the patterns. -/
theorem C7_user_update_deletes_matching (u : String) (E : List Entry) (b : Nat)
    (hb : 1 ≤ b) (hnd : (E.map Prod.fst).Nodup) :
    EventBasedInvalidation.invalidate_user_update u ⟨E, b, Option.none⟩
      = (⟨purgeAll (userPatterns u) E, b, Option.none⟩,
         Except.ok ((liveKeys E).countP
           (fun k => (userPatterns u).any (fun p => globMatch p k))))
    ∧ liveKeys (purgeAll (userPatterns u) E)
      = (liveKeys E).filter
          (fun k => !((userPatterns u).any (fun p => globMatch p k))) := by
  constructor
  · show EventBasedInvalidation.runPatterns (userPatterns u)
      ⟨E, b, Option.none⟩ = _
    rw [runPatterns_ok b hb (userPatterns u) E hnd,
      countAll_eq_countP (userPatterns u) E]
  · exact liveKeys_purgeAll (userPatterns u) E

/-- Witness for `C7_user_update_deletes_matching`: the spec's concrete
scenario — keys `portfolio_perf:42:1`, `portfolio_perf:42:2`, `user:42`
seeded, `invalidate_user_update("42")` returns 3 ≥ 2 and `user:42` is
gone. -/
theorem C7_witness :
    (1 ≤ 1
      ∧ (([("portfolio_perf:42:1", some ("a", 300)),
           ("portfolio_perf:42:2", some ("b", 300)),
           ("user:42", some ("c", 900))] : List Entry).map Prod.fst).Nodup)
    ∧ (EventBasedInvalidation.invalidate_user_update "42"
        ⟨[("portfolio_perf:42:1", some ("a", 300)),
          ("portfolio_perf:42:2", some ("b", 300)),
          ("user:42", some ("c", 900))], 1, Option.none⟩).2 = Except.ok 3
    ∧ 2 ≤ 3
    ∧ lookupLive (EventBasedInvalidation.invalidate_user_update "42"
        ⟨[("portfolio_perf:42:1", some ("a", 300)),
          ("portfolio_perf:42:2", some ("b", 300)),
          ("user:42", some ("c", 900))], 1, Option.none⟩).1.entries "user:42"
      = Option.none := by
  have h := C7_user_update_deletes_matching "42"
    [("portfolio_perf:42:1", some ("a", 300)),
     ("portfolio_perf:42:2", some ("b", 300)),
     ("user:42", some ("c", 900))] 1 (by decide) (by decide)
  refine ⟨⟨by decide, by decide⟩, ?_, by decide, ?_⟩
  · rw [h.1]
    rfl
  · rw [h.1]
    rfl

/-! ## Claim C2 -/

/-- Claim C2 as stated is false: two live keys `a:1`, `a:2` both match
`a:*`; with `batch = 1` the loop deletes `a:1` in its first iteration, then
the backend dies (the third command, the second iteration's `DEL`, raises).
The partial count is 1, but `delete_pattern` returns 0 — the `except`
handler discards the progress count (and logs an error, not a warning). -/
theorem C2_counterexample :
    CacheManager.delete_pattern "a:*"
        ⟨[("a:1", some ("x", 100)), ("a:2", some ("y", 100))], 1, some 3⟩
      = (⟨[("a:1", Option.none), ("a:2", some ("y", 100))], 1, some 0⟩,
         Except.ok 0)
    ∧ (0 : Nat) ≠ 1 :=
  ⟨rfl, by decide⟩

/-- Raising inside a bind propagates, keeping the raise-point state. -/
theorem bind_fail {α β : Type} (x : M α) (f : α → M β) (r r' : Redis)
    (h : x r = (r', Except.error ())) : (x >>= f) r = (r', Except.error ()) := by
  show (match x r with
    | (r2, Except.ok a2) => f a2 r2
    | (r2, Except.error e) => (r2, Except.error e)) = (r', Except.error ())
  rw [h]

/-- Claim C2, amended to the code: when the backend fails mid-scan (here:
two distinct live keys both matching the pattern, `batch = 1`, and the
backend dying after three commands, i.e. during the second iteration's
`DEL`), all three pattern-delete implementations catch the exception, log
an error, and return 0 — the partial count (1 key was already deleted) is
discarded from the return value; the keys deleted before the failure stay
deleted (`k1` is gone, `k2` is still live), and there is no retry. -/
theorem C2_amended (pat k1 k2 v1 v2 : String) (t1 t2 : Nat)
    (hg1 : globMatch pat k1 = true) (hg2 : globMatch pat k2 = true)
    (hne : k1 ≠ k2) :
    CacheManager.delete_pattern pat
        ⟨[(k1, some (v1, t1)), (k2, some (v2, t2))], 1, some 3⟩
      = (⟨[(k1, Option.none), (k2, some (v2, t2))], 1, some 0⟩, Except.ok 0)
    ∧ EventBasedInvalidation._delete_pattern pat
        ⟨[(k1, some (v1, t1)), (k2, some (v2, t2))], 1, some 3⟩
      = (⟨[(k1, Option.none), (k2, some (v2, t2))], 1, some 0⟩, Except.ok 0)
    ∧ ManualInvalidation.invalidate_pattern pat
        ⟨[(k1, some (v1, t1)), (k2, some (v2, t2))], 1, some 3⟩
      = (⟨[(k1, Option.none), (k2, some (v2, t2))], 1, some 0⟩, Except.ok 0)
    ∧ lookupLive [(k1, Option.none), (k2, some (v2, t2))] k1 = Option.none
    ∧ lookupLive [(k1, Option.none), (k2, some (v2, t2))] k2 = some (v2, t2) := by
  have hbe : (k2 == k1) = false := by
    cases hb2 : k2 == k1
    · rfl
    · exact absurd (Eq.symm (eq_of_beq hb2)) hne
  have hbe' : (k1 == k2) = false := by
    cases hb2 : k1 == k2
    · rfl
    · exact absurd (eq_of_beq hb2) hne
  have hscan1 : redisScan 0 pat
      ⟨[(k1, some (v1, t1)), (k2, some (v2, t2))], 1, some 3⟩
      = (⟨[(k1, some (v1, t1)), (k2, some (v2, t2))], 1, some 2⟩,
         Except.ok (1, scanKeys pat [(k1, some (v1, t1))])) := rfl
  have hks1 : scanKeys pat [(k1, some (v1, t1))] = [k1] := by
    simp [scanKeys, matchesE, hg1]
  rw [hks1] at hscan1
  have hdel1 : redisDelete [k1]
      ⟨[(k1, some (v1, t1)), (k2, some (v2, t2))], 1, some 2⟩
      = (⟨delEntries [k1] [(k1, some (v1, t1)), (k2, some (v2, t2))], 1, some 1⟩,
         Except.ok (delCount [k1] [(k1, some (v1, t1)), (k2, some (v2, t2))])) := rfl
  have hde : delEntries [k1] [(k1, some (v1, t1)), (k2, some (v2, t2))]
      = [(k1, Option.none), (k2, some (v2, t2))] := by
    simp [delEntries, List.contains, List.elem, hbe]
  have hdc : delCount [k1] [(k1, some (v1, t1)), (k2, some (v2, t2))] = 1 := by
    simp [delCount, List.contains, List.elem, hbe]
  rw [hde, hdc] at hdel1
  have hstep1 : (if ([k1] : List String).isEmpty then (pure 0 : M Nat)
      else Bind.bind (redisDelete [k1]) (fun n => pure (0 + n)))
      ⟨[(k1, some (v1, t1)), (k2, some (v2, t2))], 1, some 2⟩
      = (⟨[(k1, Option.none), (k2, some (v2, t2))], 1, some 1⟩, Except.ok 1) := by
    show Bind.bind (redisDelete [k1]) (fun n => (pure (0 + n) : M Nat)) _ = _
    rw [bind_run _ _ _ _ _ hdel1]
    rfl
  have hscan2 : redisScan 1 pat
      ⟨[(k1, Option.none), (k2, some (v2, t2))], 1, some 1⟩
      = (⟨[(k1, Option.none), (k2, some (v2, t2))], 1, some 0⟩,
         Except.ok (0, scanKeys pat [(k2, some (v2, t2))])) := rfl
  have hks2 : scanKeys pat [(k2, some (v2, t2))] = [k2] := by
    simp [scanKeys, matchesE, hg2]
  rw [hks2] at hscan2
  have hfail : (if ([k2] : List String).isEmpty then (pure 1 : M Nat)
      else Bind.bind (redisDelete [k2]) (fun n => pure (1 + n)))
      ⟨[(k1, Option.none), (k2, some (v2, t2))], 1, some 0⟩
      = (⟨[(k1, Option.none), (k2, some (v2, t2))], 1, some 0⟩,
         Except.error ()) := rfl
  have hloop : deleteLoop pat (2 + 1) 0 0
      ⟨[(k1, some (v1, t1)), (k2, some (v2, t2))], 1, some 3⟩
      = (⟨[(k1, Option.none), (k2, some (v2, t2))], 1, some 0⟩,
         Except.error ()) := by
    rw [deleteLoop_run pat 2 0 0 _ _ _ _ hscan1,
      bind_run _ _ _ _ _ hstep1]
    show deleteLoop pat (1 + 1) 1 1
      ⟨[(k1, Option.none), (k2, some (v2, t2))], 1, some 1⟩ = _
    rw [deleteLoop_run pat 1 1 1 _ _ _ _ hscan2,
      bind_fail _ _ _ _ hfail]
  have himpl : deletePatternImpl pat
      ⟨[(k1, some (v1, t1)), (k2, some (v2, t2))], 1, some 3⟩
      = (⟨[(k1, Option.none), (k2, some (v2, t2))], 1, some 0⟩, Except.ok 0) := by
    show attempt (deleteLoop pat (2 + 1) 0 0) 0
      ⟨[(k1, some (v1, t1)), (k2, some (v2, t2))], 1, some 3⟩ = _
    exact attempt_fail _ _ _ _ hloop
  refine ⟨himpl, himpl, himpl, by simp [lookupLive], ?_⟩
  simp [lookupLive, List.find?, hbe']

/-- Witness for `C2_amended` at concrete keys and pattern. -/
theorem C2_amended_witness :
    (globMatch "a:*" "a:1" = true ∧ globMatch "a:*" "a:2" = true
      ∧ "a:1" ≠ "a:2")
    ∧ ManualInvalidation.invalidate_pattern "a:*"
        ⟨[("a:1", some ("x", 100)), ("a:2", some ("y", 100))], 1, some 3⟩
      = (⟨[("a:1", Option.none), ("a:2", some ("y", 100))], 1, some 0⟩,
         Except.ok 0) :=
  ⟨⟨by decide, by decide, by decide⟩,
   (C2_amended "a:*" "a:1" "a:2" "x" "y" 100 100 (by decide) (by decide)
     (by decide)).2.2.1⟩

/-! ## Claim C9: glob analysis of the price-invalidation patterns -/

/-- A clean identifier segment: no `:' separator and none of the glob
metacharacters the repository's patterns use. -/
def cleanSeg (s : String) : Bool :=
  s.data.all (fun ch => !(ch == ':') && !(ch == '*') && !(ch == '?'))

theorem cleanSeg_colon (s : String) (h : cleanSeg s = true) : ':' ∉ s.data := by
  intro hmem
  have h2 := List.all_eq_true.mp h ':' hmem
  simp at h2

theorem cleanSeg_meta (s : String) (h : cleanSeg s = true) :
    ∀ ch ∈ s.data, ch ≠ '*' ∧ ch ≠ '?' := by
  intro ch hmem
  have h2 := List.all_eq_true.mp h ch hmem
  simp only [Bool.and_eq_true, Bool.not_eq_true', beq_eq_false_iff_ne] at h2
  exact ⟨h2.1.2, h2.2⟩

/-- A metacharacter-free pattern matches only the identical string. -/
theorem globM_all_lit : ∀ (p s : List Char),
    (∀ ch ∈ p, ch ≠ '*' ∧ ch ≠ '?') → globM p s = (p == s) := by
  intro p
  induction p with
  | nil =>
    intro s _
    rw [globM_nil]
    cases s with
    | nil => rfl
    | cons d s' => rfl
  | cons c p' ih =>
    intro s hp
    have hc := hp c (List.mem_cons_self c p')
    cases s with
    | nil => rw [globM_lit_nil c hc.1]; rfl
    | cons d s' =>
      rw [globM_lit_cons c hc.1 hc.2,
        ih s' (fun ch hch => hp ch (List.mem_cons_of_mem c hch))]
      rfl

/-- A shared metacharacter-free prefix of pattern and string cancels. -/
theorem globM_append_lit : ∀ (pre p s : List Char),
    (∀ ch ∈ pre, ch ≠ '*' ∧ ch ≠ '?') → globM (pre ++ p) (pre ++ s) = globM p s := by
  intro pre
  induction pre with
  | nil => intro p s _; rfl
  | cons c t ih =>
    intro p s hp
    have hc := hp c (List.mem_cons_self c t)
    show globM (c :: (t ++ p)) (c :: (t ++ s)) = _
    rw [globM_lit_cons c hc.1 hc.2, beq_self_eq_true, Bool.true_and,
      ih p s (fun ch hch => hp ch (List.mem_cons_of_mem c hch))]

/-- A metacharacter-free pattern prefix must be consumed literally. -/
theorem globM_lit_split : ∀ (lit : List Char),
    (∀ ch ∈ lit, ch ≠ '*' ∧ ch ≠ '?') → ∀ (p s : List Char),
    (globM (lit ++ p) s = true ↔ ∃ s2, s = lit ++ s2 ∧ globM p s2 = true) := by
  intro lit
  induction lit with
  | nil =>
    intro _ p s
    constructor
    · intro h
      exact ⟨s, rfl, h⟩
    · rintro ⟨s2, rfl, h⟩
      exact h
  | cons c t ih =>
    intro hlit p s
    have hc := hlit c (List.mem_cons_self c t)
    have ht := fun ch hch => hlit ch (List.mem_cons_of_mem c hch)
    cases s with
    | nil =>
      rw [show (c :: t) ++ p = c :: (t ++ p) from rfl, globM_lit_nil c hc.1]
      constructor
      · intro h
        exact absurd h (by simp)
      · rintro ⟨s2, hs2, _⟩
        exact absurd hs2 (by simp)
    | cons d s' =>
      rw [show (c :: t) ++ p = c :: (t ++ p) from rfl, globM_lit_cons c hc.1 hc.2]
      constructor
      · intro h
        rw [Bool.and_eq_true] at h
        obtain ⟨h1, h2⟩ := h
        have hcd : c = d := eq_of_beq h1
        obtain ⟨s2, hs2, hp2⟩ := (ih ht p s').mp h2
        refine ⟨s2, ?_, hp2⟩
        rw [show (c :: t) ++ s2 = c :: (t ++ s2) from rfl, hcd, hs2]
      · rintro ⟨s2, hs2, hp2⟩
        rw [show (c :: t) ++ s2 = c :: (t ++ s2) from rfl] at hs2
        obtain ⟨hdc, hs'⟩ := List.cons_eq_cons.mp hs2
        subst hdc
        rw [beq_self_eq_true, Bool.true_and]
        exact (ih ht p s').mpr ⟨s2, hs', hp2⟩

/-- `*` splits the string: `*p` matches `s` iff some suffix matches `p`. -/
theorem globM_star_iff (p : List Char) :
    ∀ s : List Char, (globM ('*' :: p) s = true
      ↔ ∃ A B, s = A ++ B ∧ globM p B = true) := by
  intro s
  induction s with
  | nil =>
    rw [globM_star_nil]
    constructor
    · intro h
      exact ⟨[], [], rfl, h⟩
    · rintro ⟨A, B, hAB, hB⟩
      obtain ⟨hA, hB0⟩ := List.append_eq_nil.mp hAB.symm
      subst hB0
      exact hB
  | cons d s' ih =>
    rw [globM_star_cons]
    constructor
    · intro h
      rw [Bool.or_eq_true] at h
      rcases h with h1 | h2
      · exact ⟨[], d :: s', rfl, h1⟩
      · obtain ⟨A, B, hAB, hB⟩ := ih.mp h2
        exact ⟨d :: A, B, by rw [hAB]; rfl, hB⟩
    · rintro ⟨A, B, hAB, hB⟩
      rw [Bool.or_eq_true]
      cases A with
      | nil =>
        refine Or.inl ?_
        rw [show ([] : List Char) ++ B = B from rfl] at hAB
        rw [hAB]
        exact hB
      | cons a A' =>
        refine Or.inr ?_
        rw [show (a :: A') ++ B = a :: (A' ++ B) from rfl] at hAB
        obtain ⟨_, hs'⟩ := List.cons_eq_cons.mp hAB
        exact ih.mpr ⟨A', B, hs', hB⟩

/-- Where can `A ++ ':' ++ B` re-split a string `X ++ ':' ++ Y` whose first
segment `X` is colon-free: either at the same colon, or strictly later. -/
theorem colon_split : ∀ (X : List Char), ':' ∉ X →
    ∀ (A Y B : List Char), X ++ ':' :: Y = A ++ ':' :: B →
      (A = X ∧ B = Y) ∨ ∃ A2, A = X ++ ':' :: A2 ∧ Y = A2 ++ ':' :: B := by
  intro X
  induction X with
  | nil =>
    intro _ A Y B h
    cases A with
    | nil =>
      left
      have h' : ':' :: Y = ':' :: B := h
      exact ⟨rfl, ((List.cons_eq_cons.mp h').2).symm⟩
    | cons a A' =>
      right
      have h' : ':' :: Y = a :: (A' ++ ':' :: B) := h
      obtain ⟨ha, hY⟩ := List.cons_eq_cons.mp h'
      refine ⟨A', ?_, hY⟩
      rw [show ([] : List Char) ++ ':' :: A' = ':' :: A' from rfl, ← ha]
  | cons x X' ih =>
    intro hX A Y B h
    have hx : x ≠ ':' := fun he => hX (by rw [← he]; exact List.mem_cons_self x X')
    have hX' : ':' ∉ X' := fun hmem => hX (List.mem_cons_of_mem x hmem)
    cases A with
    | nil =>
      exfalso
      have h' : x :: (X' ++ ':' :: Y) = ':' :: B := h
      exact hx (List.cons_eq_cons.mp h').1
    | cons a A' =>
      have h' : x :: (X' ++ ':' :: Y) = a :: (A' ++ ':' :: B) := h
      obtain ⟨hxa, ht⟩ := List.cons_eq_cons.mp h'
      rcases ih hX' A' Y B ht with ⟨hA', hB⟩ | ⟨A2, hA', hY⟩
      · left
        exact ⟨by rw [hA', hxa], hB⟩
      · right
        refine ⟨A2, ?_, hY⟩
        rw [show (x :: X') ++ ':' :: A2 = x :: (X' ++ ':' :: A2) from rfl,
          hA', hxa]

theorem globM_head_ne (cp ds : Char) (p s : List Char)
    (h1 : cp ≠ '*') (h2 : cp ≠ '?') (hne : cp ≠ ds) :
    globM (cp :: p) (ds :: s) = false := by
  rw [globM_lit_cons cp h1 h2, beq_eq_false_iff_ne.mpr hne, Bool.false_and]

/-- `price:{c}` does not match the warmed key `price:{c}:latest`. -/
theorem nomatch_price_selfkey (c : String) (hc : cleanSeg c = true) :
    globMatch ("price:" ++ c) ("price:" ++ c ++ ":latest") = false := by
  rw [globMatch_eq_globM]
  have hd1 : ("price:" ++ c).data = "price:".data ++ c.data :=
    String.data_append _ _
  have hd2 : ("price:" ++ c ++ ":latest").data
      = "price:".data ++ (c.data ++ ":latest".data) := by
    rw [String.data_append, String.data_append]
    rfl
  rw [hd1, hd2,
    globM_append_lit "price:".data c.data (c.data ++ ":latest".data) (by decide),
    globM_all_lit c.data (c.data ++ ":latest".data) (cleanSeg_meta c hc)]
  refine beq_eq_false_iff_ne.mpr ?_
  intro he
  have hlen := congrArg List.length he
  rw [List.length_append] at hlen
  have h7 : (":latest".data).length = 7 := rfl
  omega

/-- `price:{c}` does not match the warmed key `analytics:...`. -/
theorem nomatch_price_analyticskey (c m : String) :
    globMatch ("price:" ++ c)
      ("analytics:" ++ c ++ ":" ++ m ++ ":latest") = false := by
  rw [globMatch_eq_globM]
  have hd1 : ("price:" ++ c).data = 'p' :: ("rice:".data ++ c.data) := by
    rw [String.data_append]
    rfl
  have hd2 : ("analytics:" ++ c ++ ":" ++ m ++ ":latest").data
      = 'a' :: (("nalytics:".data ++ c.data ++ ":".data ++ m.data)
          ++ ":latest".data) := by
    rw [String.data_append, String.data_append, String.data_append,
      String.data_append]
    rfl
  rw [hd1, hd2, globM_head_ne 'p' 'a' _ _ (by decide) (by decide) (by decide)]

/-- `portfolio_perf:*:*` does not match the warmed key `price:{c}:latest`. -/
theorem nomatch_portfolio_pricekey (c : String) :
    globMatch "portfolio_perf:*:*" ("price:" ++ c ++ ":latest") = false := by
  rw [globMatch_eq_globM]
  have hd2 : ("price:" ++ c ++ ":latest").data
      = 'p' :: 'r' :: ("ice:".data ++ (c.data ++ ":latest".data)) := by
    rw [String.data_append, String.data_append]
    rfl
  rw [hd2]
  show globM ('p' :: 'o' :: "rtfolio_perf:*:*".data)
    ('p' :: 'r' :: ("ice:".data ++ (c.data ++ ":latest".data))) = false
  rw [globM_lit_cons 'p' (by decide) (by decide),
    globM_head_ne 'o' 'r' _ _ (by decide) (by decide) (by decide),
    Bool.and_false]

/-- `portfolio_perf:*:*` does not match the warmed key `analytics:...`. -/
theorem nomatch_portfolio_analyticskey (c m : String) :
    globMatch "portfolio_perf:*:*"
      ("analytics:" ++ c ++ ":" ++ m ++ ":latest") = false := by
  rw [globMatch_eq_globM]
  have hd2 : ("analytics:" ++ c ++ ":" ++ m ++ ":latest").data
      = 'a' :: (("nalytics:".data ++ c.data ++ ":".data ++ m.data)
          ++ ":latest".data) := by
    rw [String.data_append, String.data_append, String.data_append,
      String.data_append]
    rfl
  rw [hd2]
  show globM ('p' :: "ortfolio_perf:*:*".data)
    ('a' :: (("nalytics:".data ++ c.data ++ ":".data ++ m.data)
      ++ ":latest".data)) = false
  rw [globM_head_ne 'p' 'a' _ _ (by decide) (by decide) (by decide)]

/-- `analytics:*:{c}:*` does not match the warmed key `price:{c}:latest`. -/
theorem nomatch_analytics_pricekey (c : String) :
    globMatch ("analytics:*:" ++ c ++ ":*")
      ("price:" ++ c ++ ":latest") = false := by
  rw [globMatch_eq_globM]
  have hd1 : ("analytics:*:" ++ c ++ ":*").data
      = 'a' :: (("nalytics:*:".data ++ c.data) ++ ":*".data) := by
    rw [String.data_append, String.data_append]
    rfl
  have hd2 : ("price:" ++ c ++ ":latest").data
      = 'p' :: ("rice:".data ++ (c.data ++ ":latest".data)) := by
    rw [String.data_append, String.data_append]
    rfl
  rw [hd1, hd2, globM_head_ne 'a' 'p' _ _ (by decide) (by decide) (by decide)]

/-- The key point of claim C9: `analytics:*:{c}:*` does not match the warmed
key `analytics:{c}:{m}:latest` — matching would force `{c}` to reappear as a
fully colon-delimited inner segment, and the only such segment is `{m} ≠ {c}`
(`latest`, the final segment, has no closing separator). -/
theorem nomatch_analytics_analyticskey (c m : String) (hc : cleanSeg c = true)
    (hm : cleanSeg m = true) (hmc : m ≠ c) :
    globMatch ("analytics:*:" ++ c ++ ":*")
      ("analytics:" ++ c ++ ":" ++ m ++ ":latest") = false := by
  cases hres : globMatch ("analytics:*:" ++ c ++ ":*")
      ("analytics:" ++ c ++ ":" ++ m ++ ":latest") with
  | false => rfl
  | true =>
    exfalso
    rw [globMatch_eq_globM] at hres
    have hp2 : ("analytics:*:" ++ c ++ ":*").data
        = "analytics:".data ++ ('*' :: ':' :: (c.data ++ ':' :: ['*'])) := by
      rw [String.data_append, String.data_append]
      rfl
    have hk2 : ("analytics:" ++ c ++ ":" ++ m ++ ":latest").data
        = "analytics:".data
            ++ (c.data ++ ':' :: (m.data ++ ':' :: "latest".data)) := by
      rw [String.data_append, String.data_append, String.data_append,
        String.data_append]
      simp only [List.append_assoc]
      rfl
    rw [hp2, hk2, globM_append_lit _ _ _ (by decide)] at hres
    obtain ⟨A, B, hAB, hB⟩ := (globM_star_iff _ _).mp hres
    cases B with
    | nil =>
      rw [globM_lit_nil ':' (by decide)] at hB
      exact absurd hB (by simp)
    | cons b B1 =>
      rw [globM_lit_cons ':' (by decide) (by decide), Bool.and_eq_true] at hB
      obtain ⟨hb, hB1⟩ := hB
      have hbc : b = ':' := (eq_of_beq hb).symm
      subst hbc
      obtain ⟨B2, hB2, hB3⟩ :=
        (globM_lit_split c.data (cleanSeg_meta c hc) _ B1).mp hB1
      cases B2 with
      | nil =>
        rw [globM_lit_nil ':' (by decide)] at hB3
        exact absurd hB3 (by simp)
      | cons b2 B3 =>
        rw [globM_lit_cons ':' (by decide) (by decide), Bool.and_eq_true] at hB3
        have hb2 : b2 = ':' := (eq_of_beq hB3.1).symm
        subst hb2
        rw [hB2] at hAB
        rcases colon_split c.data (cleanSeg_colon c hc) A _ _ hAB with
          ⟨_, hBY⟩ | ⟨A2, _, hY⟩
        · rcases colon_split m.data (cleanSeg_colon m hm) c.data "latest".data
            B3 hBY.symm with ⟨hcm, _⟩ | ⟨A3, hcm, _⟩
          · exact hmc (stringDataInj (show c.data = m.data from hcm)).symm
          · exact cleanSeg_colon c hc
              (by rw [hcm]; exact List.mem_append_right _ (List.mem_cons_self _ _))
        · rcases colon_split m.data (cleanSeg_colon m hm) A2 _ _ hY with
            ⟨_, hL⟩ | ⟨A3, _, hL⟩
          · exact absurd
              (show ':' ∈ "latest".data from by
                rw [← hL]; exact List.mem_append_right _ (List.mem_cons_self _ _))
              (by decide)
          · exact absurd
              (show ':' ∈ "latest".data from by
                rw [hL]; exact List.mem_append_right _ (List.mem_cons_self _ _))
              (by decide)

/-- A pattern purge leaves the slot of a non-matching key untouched. -/
theorem lookupLive_purge_of_not_match (pat : String) (k : String)
    (h : globMatch pat k = false) :
    ∀ l : List Entry, lookupLive (purge pat l) k = lookupLive l k := by
  intro l
  induction l with
  | nil => rfl
  | cons e t ih =>
    by_cases hek : (e.1 == k) = true
    · have he : e.1 = k := eq_of_beq hek
      have hpe : purgeE pat e = e := by
        rw [purgeE, he, h]
        simp
      show lookupLive (purgeE pat e :: purge pat t) k = _
      rw [hpe]
      simp [lookupLive, List.find?_cons, hek]
    · have hek' : (e.1 == k) = false := by
        cases hb2 : e.1 == k
        · rfl
        · exact absurd hb2 hek
      show lookupLive (purgeE pat e :: purge pat t) k = _
      have hpf : ((purgeE pat e).1 == k) = false := by
        rw [purgeE_fst]
        exact hek'
      simp only [lookupLive, List.find?_cons, hpf, hek', Bool.false_eq_true,
        if_false, ite_false] at ih ⊢
      exact ih

theorem lookupLive_purgeAll_of_not_match (ps : List String) (k : String)
    (h : ∀ p ∈ ps, globMatch p k = false) :
    ∀ l : List Entry, lookupLive (purgeAll ps l) k = lookupLive l k := by
  induction ps with
  | nil => intro l; rfl
  | cons p ps ih =>
    intro l
    show lookupLive (purgeAll ps (purge p l)) k = _
    rw [ih (fun q hq => h q (List.mem_cons_of_mem p hq)) (purge p l),
      lookupLive_purge_of_not_match p k (h p (List.mem_cons_self p ps)) l]

/-- The three deletion patterns of `invalidate_price_update(coin_id)`. -/
def pricePatterns (c : String) : List String :=
  ["price:" ++ c, "analytics:*:" ++ c ++ ":*", "portfolio_perf:*:*"]

/-- Claim C9: for clean identifiers (`c`, `m` without `:' or glob
metacharacters, `m ≠ c`), `invalidate_price_update(c)` on a healthy backend
with unique keys deletes exactly the live keys matching its three patterns
and in particular leaves the warmer-written entries untouched: the slots of
`price:{c}:latest` (written by `warm_prices`) and `analytics:{c}:{m}:latest`
(written by `warm_analytics`) are unchanged, while only matching keys are
removed. -/
theorem C9_warmed_keys_survive_price_invalidation (c m : String)
    (hc : cleanSeg c = true) (hm : cleanSeg m = true) (hmc : m ≠ c)
    (E : List Entry) (b : Nat) (hb : 1 ≤ b)
    (hnd : (E.map Prod.fst).Nodup) :
    EventBasedInvalidation.invalidate_price_update c ⟨E, b, Option.none⟩
      = (⟨purgeAll (pricePatterns c) E, b, Option.none⟩,
         Except.ok ((liveKeys E).countP
           (fun k => (pricePatterns c).any (fun p => globMatch p k))))
    ∧ lookupLive (purgeAll (pricePatterns c) E) ("price:" ++ c ++ ":latest")
      = lookupLive E ("price:" ++ c ++ ":latest")
    ∧ lookupLive (purgeAll (pricePatterns c) E)
        ("analytics:" ++ c ++ ":" ++ m ++ ":latest")
      = lookupLive E ("analytics:" ++ c ++ ":" ++ m ++ ":latest")
    ∧ liveKeys (purgeAll (pricePatterns c) E)
      = (liveKeys E).filter
          (fun k => !((pricePatterns c).any (fun p => globMatch p k))) := by
  refine ⟨?_, ?_, ?_, liveKeys_purgeAll (pricePatterns c) E⟩
  · show EventBasedInvalidation.runPatterns (pricePatterns c)
      ⟨E, b, Option.none⟩ = _
    rw [runPatterns_ok b hb (pricePatterns c) E hnd,
      countAll_eq_countP (pricePatterns c) E]
  · refine lookupLive_purgeAll_of_not_match (pricePatterns c) _ ?_ E
    intro p hp
    simp only [pricePatterns, List.mem_cons, List.not_mem_nil, or_false] at hp
    rcases hp with rfl | rfl | rfl
    · exact nomatch_price_selfkey c hc
    · exact nomatch_analytics_pricekey c
    · exact nomatch_portfolio_pricekey c
  · refine lookupLive_purgeAll_of_not_match (pricePatterns c) _ ?_ E
    intro p hp
    simp only [pricePatterns, List.mem_cons, List.not_mem_nil, or_false] at hp
    rcases hp with rfl | rfl | rfl
    · exact nomatch_price_analyticskey c m
    · exact nomatch_analytics_analyticskey c m hc hm hmc
    · exact nomatch_portfolio_analyticskey c m

/-- Witness for `C9_warmed_keys_survive_price_invalidation`: a store holding
both warmed keys plus `price:bitcoin`; the invalidation deletes the latter
but leaves both warmed entries exactly as they were. -/
theorem C9_witness :
    (cleanSeg "bitcoin" = true ∧ cleanSeg "sma" = true
      ∧ "sma" ≠ "bitcoin" ∧ 1 ≤ 1
      ∧ (([("price:bitcoin:latest", some ("42000", 60)),
           ("analytics:bitcoin:sma:latest", some ("7", 300)),
           ("price:bitcoin", some ("1", 10))] : List Entry).map
            Prod.fst).Nodup)
    ∧ lookupLive (EventBasedInvalidation.invalidate_price_update "bitcoin"
        ⟨[("price:bitcoin:latest", some ("42000", 60)),
          ("analytics:bitcoin:sma:latest", some ("7", 300)),
          ("price:bitcoin", some ("1", 10))], 1, Option.none⟩).1.entries
        ("price:" ++ "bitcoin" ++ ":latest") = some ("42000", 60)
    ∧ lookupLive (EventBasedInvalidation.invalidate_price_update "bitcoin"
        ⟨[("price:bitcoin:latest", some ("42000", 60)),
          ("analytics:bitcoin:sma:latest", some ("7", 300)),
          ("price:bitcoin", some ("1", 10))], 1, Option.none⟩).1.entries
        ("analytics:" ++ "bitcoin" ++ ":" ++ "sma" ++ ":latest")
      = some ("7", 300)
    ∧ lookupLive (EventBasedInvalidation.invalidate_price_update "bitcoin"
        ⟨[("price:bitcoin:latest", some ("42000", 60)),
          ("analytics:bitcoin:sma:latest", some ("7", 300)),
          ("price:bitcoin", some ("1", 10))], 1, Option.none⟩).1.entries
        "price:bitcoin" = Option.none := by
  have h := C9_warmed_keys_survive_price_invalidation "bitcoin" "sma"
    (by decide) (by decide) (by decide)
    [("price:bitcoin:latest", some ("42000", 60)),
     ("analytics:bitcoin:sma:latest", some ("7", 300)),
     ("price:bitcoin", some ("1", 10))] 1 (by decide) (by decide)
  refine ⟨⟨by decide, by decide, by decide, by decide, by decide⟩, ?_, ?_, ?_⟩
  · rw [h.1, h.2.1]
    rfl
  · rw [h.1, h.2.2.1]
    rfl
  · rw [h.1]
    rfl
